import Mathlib

set_option maxRecDepth 200000

/-
Verification of the component-extraction scripts of the rumriver-components
repository (extract_components.py, extract_components_optimized.py,
extract_components_advanced.py, extract_tailwind_style.py,
migrate_to_histoire.py, clean_migration.py).

Modelling conventions:
* HTML documents are modelled as rose trees (`Node`); only the attributes the
  scripts inspect (tag name, id, class list) are carried.  A parsed document
  (BeautifulSoup object) is a list of top-level nodes.
* Python strings are Lean `String`s; all operations are performed on the
  underlying character lists by structural recursion so that concrete runs
  reduce inside the kernel.  Python `x in s` is the substring test
  `containsSub`, `s[:n]` is `List.take`, `s.strip()` is `trimData`,
  `s.lower()` is `lowerData`, and Python `sorted` / `list.sort` is
  `List.insertionSort` with the code-point lexicographic order `strLe`.
* `str(element)` (BeautifulSoup serialization) is `Node.serialize`, a
  canonical serialization with a fixed attribute order (class before id) and
  without the void-element / entity-escaping refinements of BeautifulSoup;
  the scripts only ever hash, measure or substring-search this string.
* MD5 digests are modelled by the serialized string itself, i.e. the digest
  is treated as injective; every dedup property proved below is a property
  of the digests under this perfect-hash model.
* Per-document read/parse failures (the only exceptions the scripts catch)
  are modelled by feeding `Except` values into the per-file runners.
-/

/-! ### String utilities -/

/-- Code-point lexicographic strict order on character lists (Python `<` on
`str`). -/
def lexLt : List Char → List Char → Bool
  | [], [] => false
  | [], _ :: _ => true
  | _ :: _, [] => false
  | a :: as, b :: bs =>
    if a.val < b.val then true
    else if a.val = b.val then lexLt as bs
    else false

/-- Python `a <= b` on strings. -/
def strLe (a b : String) : Bool := !(lexLt b.data a.data)

/-- Does `pat` occur as a contiguous sublist of `s`?  (Python `pat in s`.) -/
def containsSub (pat s : List Char) : Bool :=
  if s.take pat.length = pat then true
  else
    match s with
    | [] => pat.length = 0
    | _ :: rest => containsSub pat rest

/-- Python `pat in s` on strings. -/
def subStr (pat s : String) : Bool := containsSub pat.data s.data

/-- Python `s.lower()` (ASCII case folding suffices for this repository). -/
def lowerData (s : List Char) : List Char := s.map Char.toLower

/-- Python `s.strip()`. -/
def trimData (s : List Char) : List Char :=
  ((s.dropWhile Char.isWhitespace).reverse.dropWhile Char.isWhitespace).reverse

/-- Python `str.capitalize()`: first character uppercased, rest lowercased. -/
def capitalizeData : List Char → List Char
  | [] => []
  | c :: cs => c.toUpper :: cs.map Char.toLower

/-- Python `str.title()`: a letter that follows a letter is lowercased, a
letter that follows a non-letter is uppercased. -/
def titleData : Bool → List Char → List Char
  | _, [] => []
  | prev, c :: cs =>
    if c.isAlpha then (if prev then c.toLower else c.toUpper) :: titleData true cs
    else c :: titleData false cs

/-- Python `s.rstrip(c)`: remove all trailing occurrences of `c`. -/
def rstripChar (c : Char) (s : List Char) : List Char :=
  (s.reverse.dropWhile (· = c)).reverse

/-- Python `s.startswith(p)`. -/
def startsWithData (p s : List Char) : Bool := s.take p.length = p

/-- Split a character list on whitespace runs (Python `s.split()`). -/
def splitWsAux (cur : List Char) (acc : List (List Char)) : List Char → List (List Char)
  | [] => if cur = [] then acc.reverse else (cur.reverse :: acc).reverse
  | c :: cs =>
    if c.isWhitespace then
      if cur = [] then splitWsAux [] acc cs
      else splitWsAux [] (cur.reverse :: acc) cs
    else splitWsAux (c :: cur) acc cs

def splitWs (s : List Char) : List (List Char) := splitWsAux [] [] s

/-- Concatenate a list of strings (Python `''.join`). -/
def joinAll (l : List String) : String := l.foldl (· ++ ·) ""

/-- Python `' '.join(l)`. -/
def joinSpace (l : List String) : String :=
  match l with
  | [] => ""
  | x :: xs => xs.foldl (fun acc s => acc ++ " " ++ s) x

/-! ### Decimal rendering of a counter (Python `str(n)` / f-string) -/

/-- Fuel-driven decimal digit rendering; `decChars fuel n` is the decimal
representation of `n` whenever `n ≤ fuel` and `0 < n`. -/
def decChars : Nat → Nat → List Char
  | 0, _ => []
  | _ + 1, 0 => []
  | fuel + 1, n + 1 => decChars fuel ((n + 1) / 10) ++ [Nat.digitChar ((n + 1) % 10)]

/-- Python `str(n)` for a natural number. -/
def natStr (n : Nat) : String := if n = 0 then "0" else ⟨decChars n n⟩

/-- Value of a decimal digit character. -/
def digitVal (c : Char) : Nat := c.val.toNat - 48

/-- Parse a decimal character list back to a number (left inverse used to
prove injectivity of `natStr`). -/
def decVal (s : List Char) : Nat := s.foldl (fun acc c => acc * 10 + digitVal c) 0

/-! ### HTML node model -/

mutual
/-- An HTML node: a text node or an element with tag, optional id, class
list, and children.  Only the attributes inspected by the scripts are
modelled. -/
inductive Node where
  | text (s : String)
  | elem (tag : String) (idAttr : Option String) (classes : List String) (children : NodeList)
deriving DecidableEq, Repr
/-- Children of an element (mutual encoding of `List Node` so that all tree
functions are structurally recursive and kernel-reducible). -/
inductive NodeList where
  | nil
  | cons (head : Node) (tail : NodeList)
deriving DecidableEq, Repr
end

def NodeList.ofList : List Node → NodeList
  | [] => .nil
  | n :: l => .cons n (NodeList.ofList l)

def Node.isElem : Node → Bool
  | .text _ => false
  | .elem _ _ _ _ => true

def Node.tag : Node → String
  | .text _ => ""
  | .elem t _ _ _ => t

def Node.idAttr : Node → Option String
  | .text _ => none
  | .elem _ i _ _ => i

def Node.classes : Node → List String
  | .text _ => []
  | .elem _ _ c _ => c

mutual
/-- All nodes of the subtree rooted at a node, in document (preorder)
order, the node itself first. -/
def Node.subnodes : Node → List Node
  | .text s => [.text s]
  | .elem t i c ch => .elem t i c ch :: ch.subnodes
def NodeList.subnodes : NodeList → List Node
  | .nil => []
  | .cons n l => n.subnodes ++ l.subnodes
end

/-- Strict descendants of a node, in document order. -/
def Node.descNodes : Node → List Node
  | .text _ => []
  | .elem _ _ _ ch => ch.subnodes

/-- All descendant elements (BeautifulSoup `element.find_all()`), in
document order. -/
def Node.descElems (n : Node) : List Node := n.descNodes.filter Node.isElem

mutual
/-- Document-order list of (parent, node) pairs of a subtree; the parent of
the root is the supplied `p` (`none` for a top-level node, whose parent is
the document itself). -/
def Node.nodesWP : Option Node → Node → List (Option Node × Node)
  | p, .text s => [(p, .text s)]
  | p, .elem t i c ch => (p, .elem t i c ch) :: ch.nodesWP (some (.elem t i c ch))
def NodeList.nodesWP : Option Node → NodeList → List (Option Node × Node)
  | _, .nil => []
  | p, .cons n l => n.nodesWP p ++ l.nodesWP p
end

mutual
/-- Embeds `element.get_text(strip=True)`: concatenation of the stripped contents
of all text nodes, in document order. -/
def Node.textData : Node → List Char
  | .text s => trimData s.data
  | .elem _ _ _ ch => ch.textData
def NodeList.textData : NodeList → List Char
  | .nil => []
  | .cons n l => n.textData ++ l.textData
end

def Node.getText (n : Node) : String := ⟨n.textData⟩

mutual
/-- Embeds `str(element)`: canonical serialization.  The class attribute (space
joined) is rendered before the id attribute; text nodes are rendered
verbatim. -/
def Node.serializeData : Node → List Char
  | .text s => s.data
  | .elem t i c ch =>
    '<' :: t.data
      ++ (if c.isEmpty then [] else (" class=\"" ++ joinSpace c ++ "\"").data)
      ++ (match i with
          | none => []
          | some v => (" id=\"" ++ v ++ "\"").data)
      ++ '>' :: ch.serializeData
      ++ ('<' :: '/' :: t.data ++ ['>'])
def NodeList.serializeData : NodeList → List Char
  | .nil => []
  | .cons n l => n.serializeData ++ l.serializeData
end

/-- Embeds `str(element)` as a string; also the modelled MD5 dedup digest (see the
perfect-hash convention in the header comment). -/
def Node.serialize (n : Node) : String := ⟨n.serializeData⟩

mutual
/-- Embeds `for element in soup(['script', 'style']): element.decompose()` —
remove every script/style element from a tree. -/
def Node.scrub : Node → Option Node
  | .text s => some (.text s)
  | .elem t i c ch =>
    if t = "script" ∨ t = "style" then none
    else some (.elem t i c ch.scrub)
def NodeList.scrub : NodeList → NodeList
  | .nil => .nil
  | .cons n l =>
    match n.scrub with
    | none => l.scrub
    | some m => .cons m l.scrub
end

/-- A parsed document: the list of top-level nodes of the soup. -/
abbrev Doc := List Node

/-- All (parent, node) pairs of a document in document order; top-level
nodes have parent `none`. -/
def Doc.nodesWP (d : Doc) : List (Option Node × Node) :=
  (d.map (Node.nodesWP none)).flatten

/-- All nodes of a document in document order. -/
def Doc.subnodes (d : Doc) : List Node := (d.map Node.subnodes).flatten

/-- All elements of a document in document order. -/
def Doc.elems (d : Doc) : List Node := d.subnodes.filter Node.isElem

/-- Embeds `soup.find_all(tag)` on a whole document. -/
def Doc.findAllTag (d : Doc) (t : String) : List Node :=
  d.elems.filter (fun e => e.tag = t)

/-- Remove all script/style elements from a document
(`element.decompose()` loop shared by the Histoire and Tailwind variants). -/
def Doc.scrub (d : Doc) : Doc := d.filterMap Node.scrub

/-! ### CSS selectors (the subset used by the scripts) -/

/-- A simple (single-compound) CSS selector. -/
inductive SSel where
  | tagSel (t : String)
  | classTok (c : String)
  | tagClassTok (t c : String)
  | classContains (s : String)
  | tagClassContains (t s : String)
deriving DecidableEq, Repr

/-- Does a simple selector match an element? -/
def SSel.matchesN : SSel → Node → Bool
  | .tagSel t, n => n.tag = t
  | .classTok c, n => n.classes.contains c
  | .tagClassTok t c, n => n.tag = t ∧ n.classes.contains c
  | .classContains s, n => containsSub s.data (joinSpace n.classes).data
  | .tagClassContains t s, n => n.tag = t ∧ containsSub s.data (joinSpace n.classes).data

/-- A selector: simple, or a child combinator `p > c`. -/
inductive Sel where
  | simple (s : SSel)
  | child (p c : SSel)
deriving DecidableEq, Repr

/-- Selector match given the parent of the node (`none` when the parent is
the document itself, which no element selector matches). -/
def Sel.matchesWP : Sel → Option Node → Node → Bool
  | .simple s, _, n => n.isElem && s.matchesN n
  | .child ps cs, p, n =>
    n.isElem && cs.matchesN n && (match p with
      | some pe => pe.isElem && ps.matchesN pe
      | none => false)

/-- Embeds `soup.select(selector)`: all matches in document order. -/
def Doc.select (d : Doc) (sel : Sel) : List Node :=
  (d.nodesWP.filter (fun pn => sel.matchesWP pn.1 pn.2)).map (fun pn => pn.2)

/-! ### The seen-hash dedup fold shared by all variants -/

/-- One step of the accumulate-unless-seen loop: if the candidate passes the
validity test `p` and its key is not in the seen set, record the key and
append the candidate. -/
def dedupStep {α β : Type} [DecidableEq β] (key : α → β) (p : α → Bool)
    (s : List β × List α) (x : α) : List β × List α :=
  if p x then
    if key x ∈ s.1 then s
    else (key x :: s.1, s.2 ++ [x])
  else s

/-- The accumulate-unless-seen loop over a candidate list. -/
def dedupFold {α β : Type} [DecidableEq β] (key : α → β) (p : α → Bool)
    (l : List α) (s : List β × List α) : List β × List α :=
  l.foldl (dedupStep key p) s

/-! ### migrate_to_histoire.py (`HistoireMigrator`) -/

namespace Histoire

/-- The fixed selector table of `extract_from_file`, in source order. -/
def selectors : List Sel :=
  [ .simple (.tagSel "section"), .simple (.tagSel "header"),
    .simple (.tagSel "footer"), .simple (.tagSel "nav"),
    .simple (.tagClassTok "div" "hero"), .simple (.tagClassTok "div" "feature"),
    .simple (.tagClassTok "div" "testimonial"), .simple (.tagClassTok "div" "pricing"),
    .simple (.tagClassTok "div" "cta"), .simple (.tagClassTok "div" "contact"),
    .simple (.classContains "hero"), .simple (.classContains "feature"),
    .simple (.classContains "testimonial"), .simple (.classContains "pricing"),
    .simple (.classContains "cta"), .simple (.classContains "banner"),
    .child (.tagClassTok "div" "container") (.tagSel "div"),
    .child (.tagSel "main") (.tagSel "div") ]

/-- The text-content threshold of `is_valid_component` (the duplicate check
is the seen-hash part of `dedupStep`). -/
def validText (e : Node) : Bool := 30 ≤ e.textData.length

/-- Embeds `get_component_category`. -/
def category (e : Node) : String :=
  let classesD := (joinSpace e.classes).data
  let textD := lowerData e.textData
  if e.tag = "nav" ∨ containsSub "nav".data classesD ∨ containsSub "navigation".data classesD then
    "navigation"
  else if e.tag = "header" ∨ containsSub "header".data classesD ∨
      containsSub "hero".data classesD ∨ containsSub "hero".data (textD.take 100) then
    "heroes"
  else if e.tag = "footer" ∨ containsSub "footer".data classesD then
    "footers"
  else if containsSub "testimonial".data classesD ∨ containsSub "testimonial".data textD ∨
      containsSub "review".data textD then
    "testimonials"
  else if containsSub "pricing".data classesD ∨ containsSub "price".data textD ∨
      containsSub "plan".data textD then
    "pricing"
  else if containsSub "feature".data classesD ∨ containsSub "service".data classesD ∨
      containsSub "feature".data (textD.take 100) then
    "features"
  else if containsSub "cta".data classesD ∨ containsSub "call-to-action".data textD ∨
      containsSub "get started".data textD then
    "cta"
  else if containsSub "contact".data classesD ∨ containsSub "contact".data textD ∨
      containsSub "email".data textD then
    "contact"
  else if containsSub "blog".data classesD ∨ containsSub "article".data classesD ∨
      containsSub "post".data classesD then
    "content"
  else
    "content"

/-- Embeds `sanitize_component_name`: drop non-word non-space characters, split on
whitespace, keep the first three words, capitalize each, join. -/
def sanitizeName (s : List Char) : String :=
  let kept := s.filter (fun c => c.isAlphanum ∨ c = '_' ∨ c.isWhitespace)
  joinAll (((splitWs kept).take 3).map (fun w => ⟨capitalizeData w⟩))

/-- First h1/h2/h3 descendant (`element.find(['h1','h2','h3'])`). -/
def headingOf (e : Node) : Option Node :=
  e.descElems.find? (fun h => h.tag = "h1" ∨ h.tag = "h2" ∨ h.tag = "h3")

/-- Embeds `len(element.find_all('img', limit=5))`. -/
def imgCount (e : Node) : Nat :=
  ((e.descElems.filter (fun i => i.tag = "img")).take 5).length

/-- Number of button/anchor descendants with a class containing "btn". -/
def btnCount (e : Node) : Nat :=
  (e.descElems.filter (fun b =>
    (b.tag = "button" ∨ b.tag = "a") ∧ b.classes.any (fun c => subStr "btn" c))).length

/-- The part of `get_component_name` before the `_{index}` suffix; every
branch of the source appends `_{index}` to a stem. -/
def nameStem (e : Node) (cat : String) : String :=
  let fallback :=
    let base : String := ⟨rstripChar 's' (capitalizeData cat.data)⟩
    let feats :=
      (if imgCount e > 0 then natStr (imgCount e) ++ "Img" else "") ++
      (if btnCount e > 0 then natStr (btnCount e) ++ "Btn" else "")
    if feats ≠ "" then base ++ feats else base ++ "Component"
  match headingOf e with
  | some h =>
    let n := sanitizeName h.textData
    if n ≠ "" then n else fallback
  | none => fallback

/-- Embeds `get_component_name`. -/
def name (e : Node) (cat : String) (index : Nat) : String :=
  nameStem e cat ++ "_" ++ natStr index

/-- A stored component record (`component_data`); the prettified/indented
`html` field is modelled by the canonical serialization, a formatting-only
difference the scripts never observe. -/
structure Comp where
  name : String
  displayName : String
  html : String
  category : String
  source : String
deriving DecidableEq, Repr

/-- The `component_data` record stored for element `e` when the incremented
counter reads `i`. -/
def mkComp (fileName : String) (i : Nat) (e : Node) : Comp :=
  let cat := category e
  let nm := name e cat i
  { name := nm,
    displayName := ⟨nm.data.map (fun c => if c = '_' then ' ' else c)⟩,
    html := e.serialize, category := cat, source := fileName }

/-- Embeds `process_component`: increment the run counter, categorize, name, and
store. -/
def processComponent (fileName : String) (st : Nat × List Comp) (e : Node) :
    Nat × List Comp :=
  (st.1 + 1, st.2 ++ [mkComp fileName (st.1 + 1) e])

/-- The whole-run migrator state: the instance-level seen-hash set, the
component counter, and the accumulated components. -/
structure State where
  seen : List String
  count : Nat
  comps : List Comp
deriving Repr

def initState : State := ⟨[], 0, []⟩

/-- Candidate elements of one document: per selector, the first three
matches. -/
def candidates (d : Doc) : List Node :=
  (selectors.map (fun s => (d.select s).take 3)).flatten

/-- Embeds `extract_from_file`: on a read/parse failure the exception is caught and
the state is unchanged; otherwise scripts and styles are removed, candidates
are collected through `is_valid_component` (threading the seen-hash set),
and each collected element is processed in order. -/
def extractFile (st : State) (fileName : String) (input : Except Unit Doc) : State :=
  match input with
  | .error _ => st
  | .ok d0 =>
    let d := d0.scrub
    let r := dedupFold Node.serialize validText (candidates d) (st.seen, [])
    let pr := r.2.foldl (processComponent fileName) (st.count, [])
    ⟨r.1, pr.1, st.comps ++ pr.2⟩

/-- One file of the `extract_all_components` loop. -/
def runStep (st : State) (f : String × Except Unit Doc) : State :=
  extractFile st f.1 f.2

/-- Embeds `extract_all_components` over an already-listed set of files. -/
def run (files : List (String × Except Unit Doc)) : State :=
  files.foldl runStep initState

/-- The category grouping (`self.categories[category]`). -/
def byCategory (comps : List Comp) (cat : String) : List Comp :=
  comps.filter (fun c => c.category = cat)

end Histoire

/-! ### extract_tailwind_style.py (`TailwindStyleExtractor`) -/

namespace Tailwind

/-- The fixed selector list of `extract_from_file`, in source order. -/
def selectors : List Sel :=
  [ .simple (.tagSel "section"), .simple (.tagSel "header"),
    .simple (.tagSel "footer"),
    .simple (.classContains "hero"), .simple (.classContains "feature"),
    .simple (.classContains "testimonial"), .simple (.classContains "pricing"),
    .simple (.classContains "cta"), .simple (.tagSel "nav"),
    .simple (.tagClassTok "div" "container"),
    .simple (.tagClassContains "div" "section") ]

/-- The text-content threshold of `is_valid_component`. -/
def validText (e : Node) : Bool := 20 ≤ e.textData.length

/-- Embeds `len(element.find_all('img', limit=3))` is truthy iff an img descendant
exists. -/
def hasImg (e : Node) : Bool := e.descElems.any (fun i => i.tag = "img")

/-- Embeds `get_component_category`. -/
def category (e : Node) : String :=
  let classesD := (joinSpace e.classes).data
  let textD := lowerData e.textData
  if e.tag = "nav" ∨ containsSub "nav".data classesD then
    "Navigation"
  else if e.tag = "header" ∨ containsSub "header".data classesD ∨
      containsSub "hero".data classesD then
    "Heroes"
  else if e.tag = "footer" ∨ containsSub "footer".data classesD then
    "Footers"
  else if containsSub "testimonial".data classesD ∨ containsSub "review".data textD then
    "Testimonials"
  else if containsSub "pricing".data classesD ∨ containsSub "price".data textD then
    "Pricing"
  else if containsSub "feature".data classesD ∨ containsSub "service".data classesD then
    "Features"
  else if containsSub "cta".data classesD ∨ containsSub "call-to-action".data textD then
    "CTA Sections"
  else if containsSub "contact".data classesD ∨ containsSub "contact".data textD then
    "Contact"
  else if containsSub "gallery".data classesD ∨ hasImg e then
    "Content Sections"
  else
    "Page Sections"

/-- Embeds `len(element.find_all('img', limit=5))`. -/
def imgCount (e : Node) : Nat :=
  ((e.descElems.filter (fun i => i.tag = "img")).take 5).length

/-- Number of button/anchor descendants with a class containing "btn". -/
def btnCount (e : Node) : Nat :=
  (e.descElems.filter (fun b =>
    (b.tag = "button" ∨ b.tag = "a") ∧ b.classes.any (fun c => subStr "btn" c))).length

/-- Embeds `get_component_name`. -/
def name (e : Node) (cat : String) : String :=
  let fallback :=
    let feats :=
      (if imgCount e > 0 then
        [natStr (imgCount e) ++ " Image" ++ (if imgCount e > 1 then "s" else "")] else []) ++
      (if btnCount e > 0 then
        [natStr (btnCount e) ++ " Button" ++ (if btnCount e > 1 then "s" else "")] else [])
    match feats with
    | [] => cat ++ " Section"
    | f :: fs => cat ++ " - " ++ fs.foldl (fun acc s => acc ++ ", " ++ s) f
  match e.descElems.find? (fun h => h.tag = "h1" ∨ h.tag = "h2" ∨ h.tag = "h3") with
  | some h =>
    let n : List Char := h.textData.take 30
    if n ≠ [] then ⟨n⟩ else fallback
  | none => fallback

/-- A stored component record (`component_data`). -/
structure Comp where
  name : String
  html : String
  category : String
  source : String
deriving DecidableEq, Repr

/-- Embeds `process_component`. -/
def processComponent (fileName : String) (acc : List Comp) (e : Node) : List Comp :=
  acc ++ [{ name := name e (category e),
            html := ⟨trimData e.serializeData⟩,
            category := category e, source := fileName }]

/-- Run state: the instance-level seen-hash set and accumulated
components. -/
structure State where
  seen : List String
  comps : List Comp
deriving Repr

/-- Candidate elements of one document: per selector, the first five
matches. -/
def candidates (d : Doc) : List Node :=
  (selectors.map (fun s => (d.select s).take 5)).flatten

/-- Embeds `extract_from_file`. -/
def extractFile (st : State) (fileName : String) (input : Except Unit Doc) : State :=
  match input with
  | .error _ => st
  | .ok d0 =>
    let d := d0.scrub
    let r := dedupFold Node.serialize validText (candidates d) (st.seen, [])
    ⟨r.1, r.2.foldl (processComponent fileName) st.comps⟩

/-- One file of the `extract_all_components` loop. -/
def runStep (st : State) (f : String × Except Unit Doc) : State :=
  extractFile st f.1 f.2

/-- Embeds `extract_all_components` over an already-listed set of files. -/
def run (files : List (String × Except Unit Doc)) : State :=
  files.foldl runStep ⟨[], []⟩

end Tailwind

/-! ### extract_components.py (`ComponentExtractor`) -/

namespace Basic

/-- Embeds `self.component_patterns`, in insertion order. -/
def patternTable : List (String × List String) :=
  [ ("headers", ["header", "nav", "navigation", "navbar", "menu"]),
    ("heroes", ["hero", "banner", "jumbotron", "showcase"]),
    ("galleries", ["gallery", "portfolio", "grid", "masonry", "instagram"]),
    ("forms", ["form", "contact", "booking", "reservation"]),
    ("cards", ["card", "service", "pricing", "package", "testimonial", "review"]),
    ("sections", ["section", "feature", "about", "content", "block"]),
    ("footers", ["footer"]),
    ("modals", ["modal", "popup", "overlay"]),
    ("sliders", ["slider", "carousel", "slideshow"]),
    ("tabs", ["tab", "accordion", "toggle"]),
    ("dividers", ["divider", "separator", "shape"]),
    ("animations", ["animation", "parallax", "scroll"]),
    ("buttons", ["btn", "button", "cta"]),
    ("teams", ["team", "staff", "member"]),
    ("maps", ["map", "location", "direction"]),
    ("social", ["social", "share", "proof"]),
    ("stats", ["stat", "counter", "number"]),
    ("blogs", ["blog", "article", "post", "news"]),
    ("faqs", ["faq", "question", "accordion"]) ]

/-- The tag names for which an additional tag-name search is run. -/
def tagSearch : List String := ["header", "footer", "nav", "section", "form"]

/-- Embeds `soup.find_all(class_=re.compile(pattern, re.I))`: elements one of whose
classes contains the pattern case-insensitively. -/
def byClass (d : Doc) (pat : String) : List Node :=
  d.elems.filter (fun e => e.classes.any (fun c => containsSub pat.data (lowerData c.data)))

/-- Embeds `soup.find_all(id=re.compile(pattern, re.I))`. -/
def byId (d : Doc) (pat : String) : List Node :=
  d.elems.filter (fun e =>
    match e.idAttr with
    | some i => containsSub pat.data (lowerData i.data)
    | none => false)

/-- The candidate elements contributed by one pattern, in source search
order (class matches, then id matches, then tag matches); no per-pattern
cap is applied in this variant. -/
def patCandidates (d : Doc) (pat : String) : List Node :=
  byClass d pat ++ byId d pat ++ (if pat ∈ tagSearch then d.findAllTag pat else [])

/-- All candidate (category, element) pairs of one document, in table
order. -/
def candidates (d : Doc) : List (String × Node) :=
  (patternTable.map (fun ct =>
    (ct.2.map (fun pat => (patCandidates d pat).map (fun e => (ct.1, e)))).flatten)).flatten

/-- Embeds `is_significant_element`: non-empty text, at least 2 descendant
elements, text length at least 20. -/
def isSignificant (e : Node) : Bool :=
  ¬ e.textData.isEmpty ∧ 2 ≤ e.descElems.length ∧ 20 ≤ e.textData.length

/-- Embeds `generate_component_name`. -/
def generateName (identifier ctype : String) : String :=
  let cleaned := identifier.data.map (fun c => if c = '-' ∨ c = '_' then ' ' else c)
  let nm := joinSpace ((splitWs cleaned).map (fun w => ⟨capitalizeData w⟩))
  let nm2 :=
    if containsSub (lowerData ctype.data) (lowerData nm.data) then nm
    else ⟨capitalizeData ctype.data⟩ ++ " - " ++ nm
  ⟨nm2.data.take 50⟩

/-- A component record; the best-effort `css`/`js` association strings and
the generated `description` are carried by the source but never read by any
property verified here and are omitted.  `html` (prettified) is modelled by
the canonical serialization. -/
structure Comp where
  compId : String
  name : String
  category : String
  fileSource : String
  html : String
  hash : String
deriving DecidableEq, Repr

/-- Embeds `extract_component_from_element`. -/
def mkComp (e : Node) (fileName ctype : String) (cid : Nat) : Comp :=
  let identifier :=
    match e.idAttr with
    | some i => if i ≠ "" then i else if ¬ e.classes.isEmpty then joinSpace e.classes else e.tag
    | none => if ¬ e.classes.isEmpty then joinSpace e.classes else e.tag
  { compId := "comp-" ++ natStr cid,
    name := generateName identifier ctype,
    category := ⟨ctype.data.map Char.toUpper⟩,
    fileSource := fileName,
    html := e.serialize,
    hash := e.serialize }

/-- Embeds `process_file`: a parse/read failure yields no components; otherwise
every significant candidate is numbered and kept unless its hash already
occurs among the components accumulated from earlier files (`is_duplicate`
checks `self.components`, which is only extended after the file returns). -/
def processFile (prior : List Comp) (cid : Nat) (fileName : String)
    (input : Except Unit Doc) : Nat × List Comp :=
  match input with
  | .error _ => (cid, [])
  | .ok d =>
    (candidates d).foldl
      (fun st ce =>
        if isSignificant ce.2 then
          let comp := mkComp ce.2 fileName ce.1 st.1
          (st.1 + 1, if (prior.map Comp.hash).contains comp.hash then st.2 else st.2 ++ [comp])
        else st)
      (cid, [])

/-- One file of the accumulation loop of `run`. -/
def runStep (st : Nat × List Comp) (f : String × Except Unit Doc) : Nat × List Comp :=
  let r := processFile st.2 st.1 f.1 f.2
  (r.1, st.2 ++ r.2)

/-- The per-file accumulation loop of `run` (before the final dedup pass). -/
def runFiles (files : List (String × Except Unit Doc)) : Nat × List Comp :=
  files.foldl runStep (1, [])

/-- Embeds `run`: process all files, then remove duplicates once more with a
run-wide seen-hash set. -/
def run (files : List (String × Except Unit Doc)) : List Comp :=
  (dedupFold Comp.hash (fun _ => true) (runFiles files).2 ([], [])).2

end Basic

/-! ### extract_components_optimized.py (`OptimizedComponentExtractor`) -/

namespace Optimized

/-- Embeds `major_selectors`, in source order; a leading dot means a CSS class
selector, otherwise a tag-name `find_all`. -/
def selectorTable : List (Sel × String) :=
  [ (.simple (.tagSel "header"), "HEADERS"),
    (.simple (.tagSel "nav"), "NAVIGATION"),
    (.simple (.classTok "hero"), "HEROES"),
    (.simple (.classTok "gallery"), "GALLERIES"),
    (.simple (.classTok "services"), "SERVICES"),
    (.simple (.classTok "testimonial"), "TESTIMONIALS"),
    (.simple (.classTok "pricing"), "PRICING"),
    (.simple (.classTok "contact"), "FORMS"),
    (.simple (.tagSel "footer"), "FOOTERS"),
    (.simple (.classTok "section"), "SECTIONS"),
    (.simple (.classTok "card"), "CARDS"),
    (.simple (.classTok "accordion"), "ACCORDIONS"),
    (.simple (.classTok "tabs"), "TABS"),
    (.simple (.classTok "modal"), "MODALS"),
    (.simple (.classTok "slider"), "SLIDERS") ]

/-- The substantial-content test `len(str(elem)) > 100`. -/
def substantial (e : Node) : Bool := 100 < e.serializeData.length

/-- A component record; `html` is `str(elem)[:2000]`. -/
structure Comp where
  compId : String
  name : String
  category : String
  fileSource : String
  html : String
  hash : String
deriving DecidableEq, Repr

/-- The generated name: id, else first class, else tag name; separators to
spaces, title case, truncated to 40. -/
def mkName (e : Node) : String :=
  let base :=
    match e.idAttr with
    | some i => if i ≠ "" then i else (match e.classes.head? with
        | some c => c
        | none => e.tag)
    | none => match e.classes.head? with
        | some c => c
        | none => e.tag
  ⟨(titleData false (base.data.map (fun c => if c = '-' ∨ c = '_' then ' ' else c))).take 40⟩

def mkComp (e : Node) (fileName cat : String) (cid : Nat) : Comp :=
  { compId := "comp-" ++ natStr cid,
    name := mkName e,
    category := cat,
    fileSource := fileName,
    html := ⟨e.serializeData.take 2000⟩,
    hash := e.serialize }

/-- The candidate (element, category) pairs of one document: per table
entry, the first three matches. -/
def candidates (d : Doc) : List (Node × String) :=
  (selectorTable.map (fun sc => ((d.select sc.1).take 3).map (fun e => (e, sc.2)))).flatten

/-- Embeds `extract_major_components`: the seen-hash set is local to the document.
Retained elements are numbered with the instance-level counter. -/
def extractMajor (cid : Nat) (fileName : String) (d : Doc) : Nat × List Comp :=
  let kept := dedupFold (fun x => x.1.serialize) (fun x => substantial x.1)
    (candidates d) ([], [])
  ((kept.2).foldl
      (fun st p => (st.1 + 1, st.2 ++ [mkComp p.1 fileName p.2 st.1]))
      (cid, []))

/-- Embeds `process_file` + the accumulation loop of `run` (this variant has no
final dedup pass). -/
def run (files : List (String × Except Unit Doc)) : List Comp :=
  (files.foldl
    (fun st f =>
      match f.2 with
      | .error _ => st
      | .ok d =>
        let r := extractMajor st.1 f.1 d
        (r.1, st.2 ++ r.2))
    (1, [])).2

end Optimized

/-! ### extract_components_advanced.py (`AdvancedComponentExtractor`) -/

namespace Advanced

/-- Embeds `major_selectors`, in source order. -/
def selectorTable : List (Sel × String) :=
  [ (.simple (.tagSel "header"), "NAVIGATION"),
    (.simple (.tagSel "nav"), "NAVIGATION"),
    (.simple (.classTok "navigation"), "NAVIGATION"),
    (.simple (.classTok "navbar"), "NAVIGATION"),
    (.simple (.classTok "hero"), "HERO SECTIONS"),
    (.simple (.classTok "banner"), "HERO SECTIONS"),
    (.simple (.classTok "showcase"), "HERO SECTIONS"),
    (.simple (.classTok "jumbotron"), "HERO SECTIONS"),
    (.simple (.classTok "gallery"), "GALLERIES"),
    (.simple (.classTok "portfolio"), "GALLERIES"),
    (.simple (.classTok "image-grid"), "GALLERIES"),
    (.simple (.classTok "instagram"), "GALLERIES"),
    (.simple (.classTok "services"), "SERVICE SECTIONS"),
    (.simple (.classTok "features"), "SERVICE SECTIONS"),
    (.simple (.classTok "benefits"), "SERVICE SECTIONS"),
    (.simple (.classTok "testimonial"), "TESTIMONIALS"),
    (.simple (.classTok "reviews"), "TESTIMONIALS"),
    (.simple (.classTok "feedback"), "TESTIMONIALS"),
    (.simple (.classTok "pricing"), "PRICING"),
    (.simple (.classTok "packages"), "PRICING"),
    (.simple (.classTok "plans"), "PRICING"),
    (.simple (.classTok "contact"), "CONTACT FORMS"),
    (.simple (.tagSel "form"), "CONTACT FORMS"),
    (.simple (.classTok "booking"), "CONTACT FORMS"),
    (.simple (.tagSel "footer"), "FOOTERS"),
    (.simple (.classTok "footer"), "FOOTERS"),
    (.simple (.classTok "card"), "CARDS & BLOCKS"),
    (.simple (.classTok "block"), "CARDS & BLOCKS"),
    (.simple (.classTok "item"), "CARDS & BLOCKS"),
    (.simple (.classTok "accordion"), "INTERACTIVE"),
    (.simple (.classTok "tabs"), "INTERACTIVE"),
    (.simple (.classTok "modal"), "INTERACTIVE"),
    (.simple (.classTok "popup"), "INTERACTIVE"),
    (.simple (.classTok "slider"), "INTERACTIVE"),
    (.simple (.classTok "carousel"), "INTERACTIVE"),
    (.simple (.tagSel "section"), "CONTENT SECTIONS"),
    (.simple (.classTok "section"), "CONTENT SECTIONS") ]

/-- Embeds `len(str(elem)) > 100`. -/
def substantial (e : Node) : Bool := 100 < e.serializeData.length

/-- A component record; the generated descriptive `name`, the filter `tags`,
the text `description` and the `size` field are derived display metadata the
source computes from the element alone — they never influence which elements
are retained and are not read by any property verified here, so they are
omitted.  `html` is `str(elem)[:3000]`. -/
structure Comp where
  compId : String
  category : String
  fileSource : String
  html : String
  hash : String
deriving DecidableEq, Repr

def mkComp (e : Node) (fileName cat : String) (cid : Nat) : Comp :=
  { compId := "comp-" ++ natStr cid,
    category := cat,
    fileSource := fileName,
    html := ⟨e.serializeData.take 3000⟩,
    hash := e.serialize }

/-- The candidate (element, category) pairs of one document: per table
entry, the first five matches. -/
def candidates (d : Doc) : List (Node × String) :=
  (selectorTable.map (fun sc => ((d.select sc.1).take 5).map (fun e => (e, sc.2)))).flatten

/-- Embeds `extract_major_components`: the seen-hash set is LOCAL to the document
(`seen_hashes = set()` inside the method), so deduplication never crosses
document boundaries in this variant. -/
def extractMajor (cid : Nat) (fileName : String) (d : Doc) : Nat × List Comp :=
  let kept := dedupFold (fun x => x.1.serialize) (fun x => substantial x.1)
    (candidates d) ([], [])
  ((kept.2).foldl
      (fun st p => (st.1 + 1, st.2 ++ [mkComp p.1 fileName p.2 st.1]))
      (cid, []))

/-- Embeds `process_file` + the accumulation loop of `run`; there is no whole-run
dedup pass in this variant. -/
def run (files : List (String × Except Unit Doc)) : List Comp :=
  (files.foldl
    (fun st f =>
      match f.2 with
      | .error _ => st
      | .ok d =>
        let r := extractMajor st.1 f.1 d
        (r.1, st.2 ++ r.2))
    (1, [])).2

end Advanced

/-! ### clean_migration.py (`ComponentCleaner`) -/

namespace Clean

/-- A component file on disk: its name (filename minus `.vue`) and its text
content. -/
structure VueFile where
  name : String
  content : String
deriving DecidableEq, Repr

/-- The `remove_patterns` check: `re.match(r'^400AcresOf', name)` or
`re.match(r'Component_\d+$', name)` (i.e. the whole name is `Component_`
followed by one or more digits, since `re.match` anchors at the start). -/
def badName (n : String) : Bool :=
  startsWithData "400AcresOf".data n.data ∨
  (startsWithData "Component_".data n.data ∧
    ¬ (n.data.drop 10).isEmpty ∧ (n.data.drop 10).all Char.isDigit)

/-- Suffix of `s` after the first occurrence of `pat` (`none` when `pat`
does not occur). -/
def afterFirst (pat : List Char) (s : List Char) : Option (List Char) :=
  if startsWithData pat s then some (s.drop pat.length)
  else
    match s with
    | [] => none
    | _ :: r => afterFirst pat r

/-- Content of `s` before the first occurrence of `pat`. -/
def beforeFirst (pat : List Char) (s : List Char) : Option (List Char) :=
  if startsWithData pat s then some []
  else
    match s with
    | [] => none
    | c :: r => (beforeFirst pat r).map (fun l => c :: l)

/-- Embeds `re.search(r'<template>(.*?)</template>', content, re.DOTALL)`: the text
between the first `<template>` and the first following `</template>`. -/
def templateRegion (content : String) : Option String :=
  match afterFirst "<template>".data content.data with
  | none => none
  | some rest =>
    match beforeFirst "</template>".data rest with
    | none => none
    | some inner => some ⟨inner⟩

/-- Association-list lookup modelling the `content_hashes` dict. -/
def lookupA : List (String × String) → String → Option String
  | [], _ => none
  | (k, v) :: rest, t => if t = k then some v else lookupA rest t

/-- State of the duplicate scan: the `content_hashes` map (template digest →
currently kept name), the surviving component files in listing order, and
the names that still have a story file. -/
structure State where
  hashes : List (String × String)
  kept : List VueFile
  stories : List String
deriving Repr

/-- One iteration of the duplicate-removal loop of
`clean_existing_components` over one listed file. -/
def cleanStep (st : State) (f : VueFile) : State :=
  if badName f.name then
    { st with stories := st.stories.filter (fun s => s ≠ f.name) }
  else
    match templateRegion f.content with
    | none => { st with kept := st.kept ++ [f] }
    | some tpl =>
      match lookupA st.hashes tpl with
      | none =>
        { hashes := st.hashes ++ [(tpl, f.name)],
          kept := st.kept ++ [f],
          stories := st.stories }
      | some existing =>
        if f.name.length < existing.length ∨ lexLt f.name.data existing.data then
          { hashes := st.hashes.map (fun hv => if hv.1 = tpl then (tpl, f.name) else hv),
            kept := (st.kept.filter (fun g => g.name ≠ existing)) ++ [f],
            stories := st.stories.filter (fun s => s ≠ existing) }
        else
          { hashes := st.hashes,
            kept := st.kept,
            stories := st.stories.filter (fun s => s ≠ f.name) }

/-- The duplicate-removal scan of `clean_existing_components` (the part
before the `consolidate_similar_components` call), over the directory
listing. -/
def cleanScan (files : List VueFile) (stories : List String) : State :=
  files.foldl cleanStep ⟨[], [], stories⟩

/-- Embeds `re.sub(r'_\d+$', '', name)`: strip one trailing `_<digits>` suffix. -/
def stripNumSuffix (n : String) : String :=
  let r := n.data.reverse
  let ds := r.takeWhile Char.isDigit
  if ¬ ds.isEmpty ∧ (r.drop ds.length).head? = some '_' then
    ⟨(r.drop (ds.length + 1)).reverse⟩
  else n

/-- First occurrences of a list, in order (the iteration order of the
`name_groups` dictionary). -/
def firstOccs : List String → List String
  | [] => []
  | x :: xs => x :: (firstOccs xs).filter (fun y => y ≠ x)

/-- The names removed by `consolidate_similar_components`: for every base
name group with more than two members, all but the first two names in
ascending lexicographic order. -/
def consolidateRemoved (names : List String) : List String :=
  ((firstOccs (names.map stripNumSuffix)).map (fun b =>
    let g := names.filter (fun m => stripNumSuffix m = b)
    if 2 < g.length then (g.insertionSort (fun a c => strLe a c)).drop 2 else [])).flatten

/-- Embeds `consolidate_similar_components` on a directory listing: the surviving
component names and the surviving story names. -/
def consolidate (names : List String) (stories : List String) :
    List String × List String :=
  let rem := consolidateRemoved names
  (names.filter (fun n => ¬ rem.contains n),
   stories.filter (fun n => ¬ rem.contains n))

end Clean

/-! ### Specification helpers and concrete fixture documents -/

/-- Specification form of the Histoire per-file processing loop: the
components produced from a collected element list when the run counter
starts at `c0` (proved equal to the `foldl` in the pipeline below). -/
def Histoire.procList (f : String) (c0 : Nat) : List Node → List Histoire.Comp
  | [] => []
  | e :: rest => Histoire.mkComp f (c0 + 1) e :: Histoire.procList f (c0 + 1) rest

/-- Fixture (spec §8.6): a `<nav>` with three child links and 40 characters
of visible text. -/
def fixNav : Node := .elem "nav" none [] (.ofList [
  .elem "a" none [] (.ofList [.text "0123456789012"]),
  .elem "a" none [] (.ofList [.text "3456789012345"]),
  .elem "a" none [] (.ofList [.text "67890123456789"])])

/-- Fixture (spec §8.6): a `<div class="hero">` with an image and 50
characters of visible text. -/
def fixHero : Node := .elem "div" none ["hero"] (.ofList [
  .elem "img" none [] .nil,
  .text "01234567890123456789012345678901234567890123456789"])

/-- The fixture document of spec §8.6. -/
def fixDoc : Doc :=
  [.elem "html" none [] (.ofList [.elem "body" none [] (.ofList [fixNav, fixHero])])]

/-- Two elements agreeing on tag, class list and visible text, one with an
img descendant, one without. -/
def imgDiv : Node := .elem "div" none []
  (.ofList [.elem "img" none [] .nil, .text "welcome everyone"])

def plainDiv : Node := .elem "div" none [] (.ofList [.text "welcome everyone"])

/-- A document whose only element is a `<header>` with no descendant
elements but 120 characters of text. -/
def hdrDoc : Doc := [.elem "header" none [] (.ofList [.text
  "012345678901234567890123456789012345678901234567890123456789012345678901234567890123456789012345678901234567890123456789"])]

/-- A document whose only element is a `<section>` with 100 characters of
text (serialized length 119 > 100). -/
def secDoc : Doc := [.elem "section" none [] (.ofList [.text
  "0123456789012345678901234567890123456789012345678901234567890123456789012345678901234567890123456789"])]

/-- A significant `div.hero` candidate (two descendant elements, over 20
characters of text) with a distinguishing text suffix. -/
def heroDiv (t : String) : Node := .elem "div" none ["hero"] (.ofList [
  .elem "p" none [] (.ofList [.text ("Rustic barn wedding venue " ++ t)]),
  .elem "span" none [] .nil])

/-- Six pairwise-distinct significant elements all matching (only) the
`hero` class pattern. -/
def sixHeroes : Doc :=
  [heroDiv "one", heroDiv "two", heroDiv "three", heroDiv "four",
   heroDiv "five", heroDiv "six"]

/-- A document whose `<section>` contains a `<script>` element and 40
characters of text. -/
def scriptDoc : Doc := [.elem "section" none [] (.ofList [
  .elem "script" none [] (.ofList [.text "var x = 1;"]),
  .text "0123456789012345678901234567890123456789"])]

/-- Two component files with byte-identical template regions whose names
order differently by length than lexicographically. -/
def fileB : Clean.VueFile := ⟨"B", "<template>X</template>"⟩

def fileAz : Clean.VueFile := ⟨"Az", "<template>X</template>"⟩

/-! ### Lemmas about the dedup fold -/

theorem dedupStep_cases {α β : Type} [DecidableEq β] (key : α → β) (p : α → Bool)
    (s : List β × List α) (x : α) :
    (p x = true ∧ key x ∉ s.1 ∧ dedupStep key p s x = (key x :: s.1, s.2 ++ [x])) ∨
    dedupStep key p s x = s := by
  unfold dedupStep
  by_cases h1 : p x = true
  · by_cases h2 : key x ∈ s.1
    · right; simp [h1, h2]
    · left; exact ⟨h1, h2, by simp [h1, h2]⟩
  · right; simp [h1]

theorem dedupFold_nil {α β : Type} [DecidableEq β] (key : α → β) (p : α → Bool)
    (s : List β × List α) : dedupFold key p [] s = s := rfl

theorem dedupFold_cons {α β : Type} [DecidableEq β] (key : α → β) (p : α → Bool)
    (x : α) (xs : List α) (s : List β × List α) :
    dedupFold key p (x :: xs) s = dedupFold key p xs (dedupStep key p s x) := rfl

theorem dedupFold_seen_mono {α β : Type} [DecidableEq β] (key : α → β) (p : α → Bool) :
    ∀ (l : List α) (s : List β × List α), s.1 ⊆ (dedupFold key p l s).1 := by
  intro l
  induction l with
  | nil => intro s; exact fun _ h => h
  | cons x xs ih =>
    intro s
    rw [dedupFold_cons]
    refine Set.Subset.trans ?_ (ih (dedupStep key p s x))
    rcases dedupStep_cases key p s x with ⟨_, _, he⟩ | he
    · rw [he]; exact List.subset_cons_self _ _
    · rw [he]

theorem dedupFold_inv {α β : Type} [DecidableEq β] (key : α → β) (p : α → Bool) :
    ∀ (l : List α) (s : List β × List α),
      (∀ a ∈ s.2, key a ∈ s.1) →
      (s.2.map key).Pairwise (fun a b => a ≠ b) →
      (∀ a ∈ (dedupFold key p l s).2, key a ∈ (dedupFold key p l s).1) ∧
      ((dedupFold key p l s).2.map key).Pairwise (fun a b => a ≠ b) := by
  intro l
  induction l with
  | nil => intro s h1 h2; exact ⟨h1, h2⟩
  | cons x xs ih =>
    intro s h1 h2
    rw [dedupFold_cons]
    rcases dedupStep_cases key p s x with ⟨_, hn, he⟩ | he
    · refine ih _ ?_ ?_ <;> rw [he]
      · intro a ha
        simp only [List.mem_append, List.mem_singleton] at ha
        rcases ha with ha | ha
        · exact List.mem_cons_of_mem _ (h1 a ha)
        · subst ha; exact List.mem_cons_self _ _
      · simp only [List.map_append, List.map_cons, List.map_nil]
        rw [List.pairwise_append]
        refine ⟨h2, List.pairwise_singleton _ _, ?_⟩
        intro a ha b hb
        simp only [List.mem_singleton] at hb
        subst hb
        simp only [List.mem_map] at ha
        rcases ha with ⟨c, hc, rfl⟩
        intro hcontra
        exact hn (hcontra ▸ h1 c hc)
    · rw [he]; exact ih s h1 h2

theorem dedupFold_mem {α β : Type} [DecidableEq β] (key : α → β) (p : α → Bool) :
    ∀ (l : List α) (s : List β × List α) (a : α),
      a ∈ (dedupFold key p l s).2 → a ∈ s.2 ∨ (a ∈ l ∧ p a = true) := by
  intro l
  induction l with
  | nil => intro s a ha; exact Or.inl ha
  | cons x xs ih =>
    intro s a ha
    rw [dedupFold_cons] at ha
    rcases ih _ a ha with hm | ⟨hm, hp⟩
    · rcases dedupStep_cases key p s x with ⟨hpx, _, he⟩ | he
      · rw [he] at hm
        simp only [List.mem_append, List.mem_singleton] at hm
        rcases hm with hm | hm
        · exact Or.inl hm
        · subst hm; exact Or.inr ⟨List.mem_cons_self _ _, hpx⟩
      · rw [he] at hm; exact Or.inl hm
    · exact Or.inr ⟨List.mem_cons_of_mem _ hm, hp⟩

theorem dedupFold_new {α β : Type} [DecidableEq β] (key : α → β) (p : α → Bool) :
    ∀ (l : List α) (s : List β × List α) (a : α),
      a ∈ (dedupFold key p l s).2 → a ∈ s.2 ∨ key a ∉ s.1 := by
  intro l
  induction l with
  | nil => intro s a ha; exact Or.inl ha
  | cons x xs ih =>
    intro s a ha
    rw [dedupFold_cons] at ha
    rcases dedupStep_cases key p s x with ⟨_, hn, he⟩ | he
    · rcases ih _ a ha with hm | hm
      · rw [he] at hm
        simp only [List.mem_append, List.mem_singleton] at hm
        rcases hm with hm | hm
        · exact Or.inl hm
        · subst hm; exact Or.inr hn
      · rw [he] at hm
        refine Or.inr fun hc => hm ?_
        exact List.mem_cons_of_mem _ hc
    · rw [he] at ha
      exact ih s a ha

theorem dedupFold_len {α β : Type} [DecidableEq β] (key : α → β) (p : α → Bool) :
    ∀ (l : List α) (s : List β × List α),
      (dedupFold key p l s).2.length ≤ s.2.length + l.length := by
  intro l
  induction l with
  | nil => intro s; simp [dedupFold_nil]
  | cons x xs ih =>
    intro s
    rw [dedupFold_cons]
    rcases dedupStep_cases key p s x with ⟨_, _, he⟩ | he <;> rw [he]
    · have := ih (key x :: s.1, s.2 ++ [x])
      simp only [List.length_append, List.length_singleton, List.length_cons,
        List.length_nil] at this ⊢
      omega
    · have := ih s
      simp only [List.length_cons] at this ⊢
      omega

/-! ### Lemmas about decimal rendering -/

theorem decVal_append (l : List Char) (c : Char) :
    decVal (l ++ [c]) = decVal l * 10 + digitVal c := by
  simp [decVal, List.foldl_append]

theorem digitVal_digitChar : ∀ d, d < 10 → digitVal (Nat.digitChar d) = d := by decide

theorem digitChar_ne_underscore : ∀ d, d < 10 → Nat.digitChar d ≠ '_' := by decide

theorem decVal_decChars : ∀ fuel n, n ≤ fuel → decVal (decChars fuel n) = n := by
  intro fuel
  induction fuel with
  | zero =>
    intro n hn
    have : n = 0 := Nat.le_zero.mp hn
    subst this
    simp [decChars, decVal]
  | succ f ih =>
    intro n hn
    match n with
    | 0 => simp [decChars, decVal]
    | m + 1 =>
      have hdiv : (m + 1) / 10 < m + 1 := Nat.div_lt_self (Nat.succ_pos m) (by norm_num)
      have hle : (m + 1) / 10 ≤ f := by omega
      rw [decChars, decVal_append, ih _ hle,
        digitVal_digitChar _ (Nat.mod_lt _ (by norm_num)), Nat.mul_comm]
      exact Nat.div_add_mod (m + 1) 10

theorem underscore_not_mem_decChars : ∀ fuel n, '_' ∉ decChars fuel n := by
  intro fuel
  induction fuel with
  | zero => intro n; simp [decChars]
  | succ f ih =>
    intro n
    match n with
    | 0 => simp [decChars]
    | m + 1 =>
      rw [decChars]
      intro hmem
      rcases List.mem_append.mp hmem with h | h
      · exact ih _ h
      · rcases List.mem_singleton.mp h with h
        exact digitChar_ne_underscore _ (Nat.mod_lt _ (by norm_num)) h.symm

theorem natStr_data_of_pos {n : Nat} (h : 0 < n) : (natStr n).data = decChars n n := by
  unfold natStr
  rw [if_neg (by omega)]

theorem underscore_not_mem_natStr {n : Nat} (h : 0 < n) : '_' ∉ (natStr n).data := by
  rw [natStr_data_of_pos h]
  exact underscore_not_mem_decChars n n

theorem decVal_natStr {n : Nat} (h : 0 < n) : decVal (natStr n).data = n := by
  rw [natStr_data_of_pos h]
  exact decVal_decChars n n (Nat.le_refl n)

/-! ### The trailing `_<digits>` suffix determines the counter value -/

theorem takeWhile_append_underscore :
    ∀ (l r : List Char), '_' ∉ l →
      (l ++ '_' :: r).takeWhile (fun c => c ≠ '_') = l := by
  intro l
  induction l with
  | nil =>
    intro r _
    simp [List.takeWhile_cons]
  | cons c cs ih =>
    intro r hmem
    have hc : c ≠ '_' := fun hc => hmem (hc ▸ List.mem_cons_self _ _)
    have hcs : '_' ∉ cs := fun hx => hmem (List.mem_cons_of_mem _ hx)
    simp only [List.cons_append, List.takeWhile_cons, decide_not] at ih ⊢
    rw [decide_eq_false hc]
    simp only [Bool.not_false, if_true]
    exact congrArg (fun l => c :: l) (ih r hcs)

theorem underscore_suffix_cancel
    (p1 p2 d1 d2 : List Char) (h1 : '_' ∉ d1) (h2 : '_' ∉ d2)
    (heq : p1 ++ '_' :: d1 = p2 ++ '_' :: d2) : d1 = d2 := by
  have hrev := congrArg List.reverse heq
  simp only [List.reverse_append, List.reverse_cons] at hrev
  have h1r : '_' ∉ d1.reverse := fun h => h1 (List.mem_reverse.mp h)
  have h2r : '_' ∉ d2.reverse := fun h => h2 (List.mem_reverse.mp h)
  have e1 : d1.reverse ++ '_' :: p1.reverse =
      (d1.reverse ++ ['_']) ++ p1.reverse := by simp
  have e2 : d2.reverse ++ '_' :: p2.reverse =
      (d2.reverse ++ ['_']) ++ p2.reverse := by simp
  have hrev2 : d1.reverse ++ '_' :: p1.reverse = d2.reverse ++ '_' :: p2.reverse := by
    rw [e1, e2]; exact hrev
  have := congrArg (List.takeWhile (fun c => c ≠ '_')) hrev2
  rw [takeWhile_append_underscore _ _ h1r, takeWhile_append_underscore _ _ h2r] at this
  exact List.reverse_injective this

theorem stem_index_inj (s1 s2 : String) (i j : Nat) (hi : 0 < i) (hj : 0 < j)
    (h : s1 ++ "_" ++ natStr i = s2 ++ "_" ++ natStr j) : i = j := by
  have hd := congrArg String.data h
  have e1 : (s1 ++ "_" ++ natStr i).data = s1.data ++ '_' :: (natStr i).data := by
    simp [String.data_append]
  have e2 : (s2 ++ "_" ++ natStr j).data = s2.data ++ '_' :: (natStr j).data := by
    simp [String.data_append]
  rw [e1, e2] at hd
  have hsuf := underscore_suffix_cancel _ _ _ _
    (underscore_not_mem_natStr hi) (underscore_not_mem_natStr hj) hd
  have : decVal (natStr i).data = decVal (natStr j).data := by rw [hsuf]
  rw [decVal_natStr hi, decVal_natStr hj] at this
  exact this

/-! ### Lemmas about the Histoire pipeline -/

theorem Histoire.procFold_eq (f : String) :
    ∀ (es : List Node) (c0 : Nat) (acc : List Histoire.Comp),
      es.foldl (Histoire.processComponent f) (c0, acc) =
        (c0 + es.length, acc ++ Histoire.procList f c0 es) := by
  intro es
  induction es with
  | nil => intro c0 acc; simp [Histoire.procList]
  | cons e rest ih =>
    intro c0 acc
    rw [List.foldl_cons]
    show List.foldl (Histoire.processComponent f)
      (c0 + 1, acc ++ [Histoire.mkComp f (c0 + 1) e]) rest = _
    rw [ih, Histoire.procList]
    simp only [List.length_cons, List.append_assoc, List.singleton_append,
      Prod.mk.injEq]
    exact ⟨by omega, trivial⟩

theorem Histoire.procList_length (f : String) :
    ∀ (es : List Node) (c0 : Nat),
      (Histoire.procList f c0 es).length = es.length := by
  intro es
  induction es with
  | nil => intro c0; simp [Histoire.procList]
  | cons e rest ih =>
    intro c0
    rw [Histoire.procList]
    simp [ih]

theorem Histoire.procList_map_html (f : String) :
    ∀ (es : List Node) (c0 : Nat),
      (Histoire.procList f c0 es).map Histoire.Comp.html = es.map Node.serialize := by
  intro es
  induction es with
  | nil => intro c0; simp [Histoire.procList]
  | cons e rest ih =>
    intro c0
    rw [Histoire.procList]
    simp only [List.map_cons, ih]
    congr 1

theorem Histoire.procList_name (f : String) :
    ∀ (es : List Node) (c0 : Nat) (k : Nat) (h : k < (Histoire.procList f c0 es).length),
      ∃ stem, ((Histoire.procList f c0 es).get ⟨k, h⟩).name =
        stem ++ "_" ++ natStr (c0 + k + 1) := by
  intro es
  induction es with
  | nil => intro c0 k h; simp [Histoire.procList] at h
  | cons e rest ih =>
    intro c0 k h
    match k with
    | 0 =>
      refine ⟨Histoire.nameStem e (Histoire.category e), ?_⟩
      show (Histoire.mkComp f (c0 + 1) e).name = _
      simp [Histoire.mkComp, Histoire.name]
    | k + 1 =>
      have hlen : k < (Histoire.procList f (c0 + 1) rest).length := by
        have h2 := h
        rw [Histoire.procList] at h2
        simpa using h2
      rcases ih (c0 + 1) k hlen with ⟨stem, hstem⟩
      refine ⟨stem, ?_⟩
      show ((Histoire.procList f (c0 + 1) rest).get ⟨k, hlen⟩).name = _
      rw [hstem]
      congr 2
      omega

theorem Histoire.extractFile_ok (st : Histoire.State) (f : String) (d0 : Doc) :
    Histoire.extractFile st f (Except.ok d0) =
      { seen := (dedupFold Node.serialize Histoire.validText
          (Histoire.candidates (Doc.scrub d0)) (st.seen, [])).1,
        count := st.count + (dedupFold Node.serialize Histoire.validText
          (Histoire.candidates (Doc.scrub d0)) (st.seen, [])).2.length,
        comps := st.comps ++ Histoire.procList f st.count
          (dedupFold Node.serialize Histoire.validText
            (Histoire.candidates (Doc.scrub d0)) (st.seen, [])).2 } := by
  show (let d := Doc.scrub d0
        let r := dedupFold Node.serialize Histoire.validText (Histoire.candidates d) (st.seen, [])
        let pr := r.2.foldl (Histoire.processComponent f) (st.count, [])
        Histoire.State.mk r.1 pr.1 (st.comps ++ pr.2)) = _
  simp only [Histoire.procFold_eq, List.nil_append]

theorem Histoire.fold_names :
    ∀ (files : List (String × Except Unit Doc)) (st : Histoire.State),
      st.count = st.comps.length →
      (∀ k (h : k < st.comps.length),
        ∃ stem, (st.comps.get ⟨k, h⟩).name = stem ++ "_" ++ natStr (k + 1)) →
      (files.foldl Histoire.runStep st).count =
        (files.foldl Histoire.runStep st).comps.length ∧
      (∀ k (h : k < (files.foldl Histoire.runStep st).comps.length),
        ∃ stem, ((files.foldl Histoire.runStep st).comps.get
          ⟨k, h⟩).name = stem ++ "_" ++ natStr (k + 1)) := by
  intro files
  induction files with
  | nil => intro st h1 h2; exact ⟨h1, h2⟩
  | cons fd rest ih =>
    intro st h1 h2
    rw [List.foldl_cons]
    rcases fd with ⟨f, input⟩
    rcases input with e | d0
    · exact ih st h1 h2
    · rw [show Histoire.runStep st (f, Except.ok d0) =
          Histoire.extractFile st f (Except.ok d0) from rfl, Histoire.extractFile_ok]
      set es := (dedupFold Node.serialize Histoire.validText
        (Histoire.candidates (Doc.scrub d0)) (st.seen, [])).2 with hes
      refine ih _ ?_ ?_
      · simp only [List.length_append, Histoire.procList_length]
        omega
      · intro k h
        simp only [List.length_append] at h
        by_cases hk : k < st.comps.length
        · have : ((st.comps ++ Histoire.procList f st.count es).get
              ⟨k, by simp only [List.length_append]; omega⟩) =
              st.comps.get ⟨k, hk⟩ := List.get_append_left _ _ _
          rw [this]
          exact h2 k hk
        · have hj : k - st.comps.length < (Histoire.procList f st.count es).length := by
            rw [Histoire.procList_length]
            rw [Histoire.procList_length] at h
            omega
          have : ((st.comps ++ Histoire.procList f st.count es).get
              ⟨k, by simp only [List.length_append]; omega⟩) =
              (Histoire.procList f st.count es).get ⟨k - st.comps.length, hj⟩ := by
            apply List.get_append_right
            omega
          rw [this]
          rcases Histoire.procList_name f es st.count (k - st.comps.length) hj with ⟨stem, hs⟩
          refine ⟨stem, ?_⟩
          rw [hs]
          congr 2
          omega

theorem Histoire.fold_html_distinct :
    ∀ (files : List (String × Except Unit Doc)) (st : Histoire.State),
      (∀ h ∈ st.comps.map Histoire.Comp.html, h ∈ st.seen) →
      ((st.comps.map Histoire.Comp.html).Pairwise (fun a b => a ≠ b)) →
      (∀ h ∈ ((files.foldl Histoire.runStep st).comps.map
          Histoire.Comp.html),
        h ∈ (files.foldl Histoire.runStep st).seen) ∧
      (((files.foldl Histoire.runStep st).comps.map
          Histoire.Comp.html).Pairwise (fun a b => a ≠ b)) := by
  intro files
  induction files with
  | nil => intro st h1 h2; exact ⟨h1, h2⟩
  | cons fd rest ih =>
    intro st h1 h2
    rw [List.foldl_cons]
    rcases fd with ⟨f, input⟩
    rcases input with e | d0
    · exact ih st h1 h2
    · rw [show Histoire.runStep st (f, Except.ok d0) =
          Histoire.extractFile st f (Except.ok d0) from rfl, Histoire.extractFile_ok]
      set r := dedupFold Node.serialize Histoire.validText
        (Histoire.candidates (Doc.scrub d0)) (st.seen, []) with hr
      have hinv := dedupFold_inv Node.serialize Histoire.validText
        (Histoire.candidates (Doc.scrub d0)) (st.seen, [])
        (by intro a ha; simp at ha) (by simp)
      have hmono := dedupFold_seen_mono Node.serialize Histoire.validText
        (Histoire.candidates (Doc.scrub d0)) (st.seen, [])
      have hnew := dedupFold_new Node.serialize Histoire.validText
        (Histoire.candidates (Doc.scrub d0)) (st.seen, [])
      refine ih _ ?_ ?_
      · intro h hmem
        simp only [List.map_append, List.mem_append] at hmem
        rcases hmem with hmem | hmem
        · exact hmono (h1 h hmem)
        · rw [Histoire.procList_map_html] at hmem
          simp only [List.mem_map] at hmem
          rcases hmem with ⟨a, ha, rfl⟩
          exact hinv.1 a ha
      · simp only [List.map_append]
        rw [List.pairwise_append]
        refine ⟨h2, ?_, ?_⟩
        · rw [Histoire.procList_map_html]
          exact hinv.2
        · intro a ha b hb
          rw [Histoire.procList_map_html] at hb
          simp only [List.mem_map] at hb
          rcases hb with ⟨c, hc, rfl⟩
          have hcnot : Node.serialize c ∉ st.seen := by
            rcases hnew c hc with hin | hout
            · simp at hin
            · exact hout
          intro hcontra
          exact hcnot (hcontra ▸ h1 a ha)

theorem string_append_right_inj (a b s : String) (h : a ++ s = b ++ s) : a = b := by
  have hd := congrArg String.data h
  simp only [String.data_append] at hd
  have hdata := List.append_cancel_right hd
  cases a
  cases b
  exact congrArg String.mk hdata

theorem Advanced.procFold_map_hash (fn : String) :
    ∀ (l : List (Node × String)) (cid : Nat) (acc : List Advanced.Comp),
      ((l.foldl (fun st p => (st.1 + 1, st.2 ++ [Advanced.mkComp p.1 fn p.2 st.1]))
        (cid, acc)).2).map Advanced.Comp.hash =
      acc.map Advanced.Comp.hash ++ l.map (fun p => p.1.serialize) := by
  intro l
  induction l with
  | nil => intro cid acc; simp
  | cons x xs ih =>
    intro cid acc
    rw [List.foldl_cons, ih]
    simp [Advanced.mkComp]

/-- C1 (amended): the final output of the basic extractor has pairwise
distinct digests thanks to the run-wide dedup pass of `run`; the Histoire
variant achieves the same via its instance-level `seen_hashes`; in the
advanced variant the seen set is local to `extract_major_components`, so
pairwise-distinct digests are only guaranteed among the components produced
from ONE document. -/
theorem contenthash_distinct_amended :
    (∀ files, ((Basic.run files).map Basic.Comp.hash).Pairwise (fun a b => a ≠ b)) ∧
    (∀ files, ((Histoire.run files).comps.map Histoire.Comp.html).Pairwise
      (fun a b => a ≠ b)) ∧
    (∀ cid fn d, ((Advanced.extractMajor cid fn d).2.map Advanced.Comp.hash).Pairwise
      (fun a b => a ≠ b)) := by
  refine ⟨?_, ?_, ?_⟩
  · intro files
    exact (dedupFold_inv Basic.Comp.hash (fun _ => true) (Basic.runFiles files).2 ([], [])
      (by intro a ha; simp at ha) (by simp)).2
  · intro files
    exact (Histoire.fold_html_distinct files Histoire.initState
      (by intro h hm; simp [Histoire.initState] at hm) (by simp [Histoire.initState])).2
  · intro cid fn d
    show ((((dedupFold (fun x => x.1.serialize) (fun x => Advanced.substantial x.1)
      (Advanced.candidates d) ([], [])).2.foldl
        (fun st p => (st.1 + 1, st.2 ++ [Advanced.mkComp p.1 fn p.2 st.1]))
        (cid, [])).2).map Advanced.Comp.hash).Pairwise (fun a b => a ≠ b)
    rw [Advanced.procFold_map_hash]
    simp only [List.map_nil, List.nil_append]
    exact (dedupFold_inv (fun x => x.1.serialize) (fun x => Advanced.substantial x.1)
      (Advanced.candidates d) ([], [])
      (by intro a ha; simp at ha) (by simp)).2

/-- C1, counterexample to the claim as stated: the advanced extractor run on
two documents with an identical qualifying `<section>` outputs two
components with EQUAL content hashes, because its seen-hash set does not
survive across documents. -/
theorem contenthash_cross_document_cex :
    (Advanced.run [("venue-a.html", Except.ok secDoc),
      ("venue-b.html", Except.ok secDoc)]).length = 2 ∧
    ¬ ((Advanced.run [("venue-a.html", Except.ok secDoc),
      ("venue-b.html", Except.ok secDoc)]).map Advanced.Comp.hash).Pairwise
        (fun a b => a ≠ b) := by
  constructor
  · decide
  · decide

/-- C6: a per-document read/parse failure is caught inside the per-file
body: the failed document contributes no component, the accumulated state is
unchanged, and the run continues with the remaining documents exactly as if
the failed document were absent — in both the basic and the Histoire
variants. -/
theorem parse_error_skip :
    ∀ (pre post : List (String × Except Unit Doc)) (fn : String) (e : Unit),
      Basic.run (pre ++ (fn, Except.error e) :: post) = Basic.run (pre ++ post) ∧
      Histoire.run (pre ++ (fn, Except.error e) :: post) = Histoire.run (pre ++ post) := by
  intro pre post fn e
  have hstepB : ∀ st : Nat × List Basic.Comp, Basic.runStep st (fn, Except.error e) = st := by
    intro st
    simp [Basic.runStep, Basic.processFile]
  have hstepH : ∀ st : Histoire.State, Histoire.runStep st (fn, Except.error e) = st := by
    intro st
    rfl
  constructor
  · have : Basic.runFiles (pre ++ (fn, Except.error e) :: post) =
        Basic.runFiles (pre ++ post) := by
      unfold Basic.runFiles
      rw [List.foldl_append, List.foldl_cons, hstepB, List.foldl_append]
    show (dedupFold Basic.Comp.hash (fun _ => true)
      (Basic.runFiles (pre ++ (fn, Except.error e) :: post)).2 ([], [])).2 = _
    rw [this]
    rfl
  · show List.foldl Histoire.runStep Histoire.initState
      (pre ++ (fn, Except.error e) :: post) = _
    rw [List.foldl_append, List.foldl_cons, hstepH]
    show _ = List.foldl Histoire.runStep Histoire.initState (pre ++ post)
    rw [List.foldl_append]

/-- C7: on the fixture document (a `<nav>` with three child links and 40
characters of text plus a `<div class="hero">` with an image and 50
characters of text) a Histoire run produces exactly two components with
categories "navigation" and "heroes", and each of those two category groups
holds exactly one entry. -/
theorem fixture_end_to_end :
    fixNav.textData.length = 40 ∧
    (fixNav.descElems.filter (fun e => e.tag = "a")).length = 3 ∧
    fixHero.textData.length = 50 ∧
    (fixHero.descElems.filter (fun e => e.tag = "img")).length = 1 ∧
    (Histoire.run [("venue-page.html", Except.ok fixDoc)]).comps.length = 2 ∧
    ((Histoire.run [("venue-page.html", Except.ok fixDoc)]).comps.map
      Histoire.Comp.category) = ["navigation", "heroes"] ∧
    (Histoire.byCategory (Histoire.run [("venue-page.html", Except.ok fixDoc)]).comps
      "navigation").length = 1 ∧
    (Histoire.byCategory (Histoire.run [("venue-page.html", Except.ok fixDoc)]).comps
      "heroes").length = 1 := by
  refine ⟨by decide, by decide, by decide, by decide, by decide, by decide, by decide, by decide⟩

/-- C3 (amended): the Histoire classifier is a pure function of (tag name,
class list, visible text); the Tailwind classifier additionally consults
whether the element has an img descendant (`element.find_all('img',
limit=3)` in its gallery branch), and is a pure function of those four
observations. -/
theorem category_pure_function_amended :
    (∀ a b : Node, a.tag = b.tag → a.classes = b.classes → a.textData = b.textData →
      Histoire.category a = Histoire.category b) ∧
    (∀ a b : Node, a.tag = b.tag → a.classes = b.classes → a.textData = b.textData →
      Tailwind.hasImg a = Tailwind.hasImg b →
      Tailwind.category a = Tailwind.category b) := by
  constructor
  · intro a b h1 h2 h3
    unfold Histoire.category
    rw [h1, h2, h3]
  · intro a b h1 h2 h3 h4
    unfold Tailwind.category
    rw [h1, h2, h3, h4]

/-- Witness for C3: two elements differing only in their id attribute agree
on the observations and receive equal categories. -/
theorem category_pure_function_witness :
    Histoire.category (Node.elem "div" (some "x") []
        (.ofList [.text "welcome everyone"])) =
      Histoire.category (Node.elem "div" none [] (.ofList [.text "welcome everyone"])) ∧
    Tailwind.category (Node.elem "div" (some "x") []
        (.ofList [.text "welcome everyone"])) =
      Tailwind.category (Node.elem "div" none [] (.ofList [.text "welcome everyone"])) := by
  constructor
  · exact category_pure_function_amended.1 _ _ (by decide) (by decide) (by decide)
  · exact category_pure_function_amended.2 _ _ (by decide) (by decide) (by decide) (by decide)

/-- C3, counterexample to the claim as stated: two elements agreeing on tag
name, class list and visible text get DIFFERENT categories from the
Tailwind classifier, because its gallery branch inspects img descendants. -/
theorem category_pure_function_cex :
    imgDiv.tag = plainDiv.tag ∧ imgDiv.classes = plainDiv.classes ∧
    imgDiv.textData = plainDiv.textData ∧
    Tailwind.category imgDiv ≠ Tailwind.category plainDiv := by
  refine ⟨by decide, by decide, by decide, by decide⟩

/-- C10: in the Histoire variant every component name ends in `_<counter>`
where the counter is incremented before each name is generated (component
`k` of the run, 0-based, is named with counter value `k+1`); hence all names
of one run are pairwise distinct and the `.vue` / `.story.vue` paths written
by `save_components` never collide within a run. -/
theorem histoire_names_unique :
    ∀ files : List (String × Except Unit Doc),
      (∀ k (h : k < (Histoire.run files).comps.length),
        ∃ stem, ((Histoire.run files).comps.get ⟨k, h⟩).name =
          stem ++ "_" ++ natStr (k + 1)) ∧
      ((Histoire.run files).comps.map Histoire.Comp.name).Pairwise
        (fun a b => a ≠ b) ∧
      ((Histoire.run files).comps.map (fun c => c.name ++ ".vue")).Pairwise
        (fun a b => a ≠ b) ∧
      ((Histoire.run files).comps.map (fun c => c.name ++ ".story.vue")).Pairwise
        (fun a b => a ≠ b) := by
  intro files
  have hf := Histoire.fold_names files Histoire.initState rfl
    (by intro k h; simp [Histoire.initState] at h)
  have hpc : (Histoire.run files).comps.Pairwise (fun a b => a.name ≠ b.name) := by
    rw [List.pairwise_iff_getElem]
    intro i j hi hj hij
    rcases hf.2 i hi with ⟨s1, e1⟩
    rcases hf.2 j hj with ⟨s2, e2⟩
    have e1x : (Histoire.run files).comps[i].name = s1 ++ "_" ++ natStr (i + 1) := by
      simpa using e1
    have e2x : (Histoire.run files).comps[j].name = s2 ++ "_" ++ natStr (j + 1) := by
      simpa using e2
    intro hcontra
    rw [e1x, e2x] at hcontra
    have := stem_index_inj s1 s2 (i + 1) (j + 1) (by omega) (by omega) hcontra
    omega
  refine ⟨hf.2, ?_, ?_, ?_⟩
  · exact hpc.map Histoire.Comp.name (fun a b h => h)
  · exact hpc.map _ (fun a b hne hcontra => hne (string_append_right_inj _ _ _ hcontra))
  · exact hpc.map _ (fun a b hne hcontra => hne (string_append_right_inj _ _ _ hcontra))

/-- Witness for C10: in the fixture run the first component's name carries
counter value 1. -/
theorem histoire_names_unique_witness :
    (0 < (Histoire.run [("venue-page.html", Except.ok fixDoc)]).comps.length) ∧
    (∃ stem, (((Histoire.run [("venue-page.html", Except.ok fixDoc)]).comps.get
      ⟨0, by decide⟩).name = stem ++ "_" ++ natStr (0 + 1))) :=
  ⟨by decide, (histoire_names_unique [("venue-page.html", Except.ok fixDoc)]).1 0 (by decide)⟩

theorem Basic.processFile_source
    (prior : List Basic.Comp) (cid : Nat) (fn : String) (input : Except Unit Doc) :
    ∀ c ∈ (Basic.processFile prior cid fn input).2,
      ∃ e : Node, Basic.isSignificant e = true ∧ c.hash = e.serialize ∧
        c.html = e.serialize := by
  rcases input with e | d
  · intro c hc; simp [Basic.processFile] at hc
  · show ∀ c ∈ ((Basic.candidates d).foldl _ (cid, [])).2, _
    suffices h : ∀ (l : List (String × Node)) (st : Nat × List Basic.Comp),
        (∀ c ∈ st.2, ∃ e : Node, Basic.isSignificant e = true ∧ c.hash = e.serialize ∧
          c.html = e.serialize) →
        ∀ c ∈ (l.foldl (fun st ce =>
          if Basic.isSignificant ce.2 then
            ((st.1 + 1 : Nat),
             if (prior.map Basic.Comp.hash).contains (Basic.mkComp ce.2 fn ce.1 st.1).hash
             then st.2 else st.2 ++ [Basic.mkComp ce.2 fn ce.1 st.1])
          else st) st).2, ∃ e : Node, Basic.isSignificant e = true ∧
            c.hash = e.serialize ∧ c.html = e.serialize by
      exact h (Basic.candidates d) (cid, []) (by intro c hc; simp at hc)
    intro l
    induction l with
    | nil => intro st h c hc; exact h c hc
    | cons x xs ih =>
      intro st h c hc
      rw [List.foldl_cons] at hc
      refine ih _ ?_ c hc
      intro c2 hc2
      split at hc2
      next hs =>
        split at hc2
        next => exact h c2 hc2
        next =>
          rcases List.mem_append.mp hc2 with hm | hm
          · exact h c2 hm
          · rcases List.mem_singleton.mp hm with rfl
            exact ⟨x.2, hs, by simp [Basic.mkComp], by simp [Basic.mkComp]⟩
      next => exact h c2 hc2

/-- C2 (amended): in the basic extractor (`extract_components.py`) every
component of the final run output originates from an element that passed
`is_significant_element`, hence from an element with at least 2 descendant
elements; the optimized/advanced variants use a serialized-length threshold
instead and the Histoire/Tailwind variants only a text-length threshold, so
the descendant-count minimum holds only in the basic variant. -/
theorem descendant_min_basic_amended :
    ∀ (files : List (String × Except Unit Doc)) (c : Basic.Comp),
      c ∈ Basic.run files →
      ∃ e : Node, Basic.isSignificant e = true ∧ 2 ≤ e.descElems.length ∧
        c.hash = e.serialize ∧ c.html = e.serialize := by
  intro files c hc
  have hmem : c ∈ (Basic.runFiles files).2 := by
    rcases dedupFold_mem Basic.Comp.hash (fun _ => true) (Basic.runFiles files).2
      ([], []) c hc with hm | ⟨hm, _⟩
    · simp at hm
    · exact hm
  have hinv : ∀ c2 ∈ (Basic.runFiles files).2,
      ∃ e : Node, Basic.isSignificant e = true ∧ c2.hash = e.serialize ∧
        c2.html = e.serialize := by
    unfold Basic.runFiles
    suffices h : ∀ (fs : List (String × Except Unit Doc)) (st : Nat × List Basic.Comp),
        (∀ c2 ∈ st.2, ∃ e : Node, Basic.isSignificant e = true ∧
          c2.hash = e.serialize ∧ c2.html = e.serialize) →
        ∀ c2 ∈ (fs.foldl Basic.runStep st).2, ∃ e : Node,
          Basic.isSignificant e = true ∧ c2.hash = e.serialize ∧
          c2.html = e.serialize by
      exact h files (1, []) (by intro c2 hc2; simp at hc2)
    intro fs
    induction fs with
    | nil => intro st h c2 hc2; exact h c2 hc2
    | cons f rest ih =>
      intro st h c2 hc2
      rw [List.foldl_cons] at hc2
      refine ih _ ?_ c2 hc2
      intro c3 hc3
      rcases List.mem_append.mp hc3 with hm | hm
      · exact h c3 hm
      · exact Basic.processFile_source st.2 st.1 f.1 f.2 c3 hm
  rcases hinv c hmem with ⟨e, hsig, hh, hm⟩
  refine ⟨e, hsig, ?_, hh, hm⟩
  have := of_decide_eq_true hsig
  exact this.2.1

/-- Witness for C2 (amended) at a concrete run. -/
theorem descendant_min_basic_witness :
    ∃ e : Node, Basic.isSignificant e = true ∧ 2 ≤ e.descElems.length ∧
      ((Basic.run [("venue.html", Except.ok sixHeroes)]).get ⟨0, by decide⟩).hash =
        e.serialize ∧
      ((Basic.run [("venue.html", Except.ok sixHeroes)]).get ⟨0, by decide⟩).html =
        e.serialize :=
  descendant_min_basic_amended [("venue.html", Except.ok sixHeroes)] _
    (List.get_mem _ _ _)

/-- C2, counterexample to the claim as stated: the optimized extractor
retains a `<header>` that has NO descendant elements at all (its
substantial-content test is `len(str(elem)) > 100`, not a descendant
count). -/
theorem descendant_min_cex :
    (hdrDoc.elems.all (fun el => el.descElems.length < 2)) = true ∧
    (Optimized.run [("venue.html", Except.ok hdrDoc)]).length = 1 := by
  exact ⟨by decide, by decide⟩

theorem flatten_length_le {α : Type} (c : Nat) :
    ∀ (L : List (List α)), (∀ l ∈ L, l.length ≤ c) → L.flatten.length ≤ c * L.length := by
  intro L
  induction L with
  | nil => intro _; simp
  | cons x xs ih =>
    intro h
    have hx : x.length ≤ c := h x (List.mem_cons_self _ _)
    have hxs := ih (fun l hl => h l (List.mem_cons_of_mem _ hl))
    simp only [List.flatten_cons, List.length_append, List.length_cons]
    have : c * (xs.length + 1) = c * xs.length + c := by ring
    omega

theorem Histoire.candidates_len (d : Doc) : (Histoire.candidates d).length ≤ 54 := by
  have h := flatten_length_le 3 (Histoire.selectors.map (fun s => (d.select s).take 3))
    (by
      intro l hl
      rcases List.mem_map.mp hl with ⟨s, _, rfl⟩
      exact List.length_take_le _ _)
  simpa [Histoire.candidates] using h

theorem Tailwind.candidates_len_tw (d : Doc) : (Tailwind.candidates d).length ≤ 55 := by
  have h := flatten_length_le 5 (Tailwind.selectors.map (fun s => (d.select s).take 5))
    (by
      intro l hl
      rcases List.mem_map.mp hl with ⟨s, _, rfl⟩
      exact List.length_take_le _ _)
  simpa [Tailwind.candidates] using h

theorem Optimized.candidates_len_opt (d : Doc) : (Optimized.candidates d).length ≤ 45 := by
  have h := flatten_length_le 3
    (Optimized.selectorTable.map (fun sc => ((d.select sc.1).take 3).map (fun e => (e, sc.2))))
    (by
      intro l hl
      rcases List.mem_map.mp hl with ⟨s, _, rfl⟩
      rw [List.length_map]
      exact List.length_take_le _ _)
  simpa [Optimized.candidates] using h

theorem Advanced.candidates_len_adv (d : Doc) : (Advanced.candidates d).length ≤ 185 := by
  have h := flatten_length_le 5
    (Advanced.selectorTable.map (fun sc => ((d.select sc.1).take 5).map (fun e => (e, sc.2))))
    (by
      intro l hl
      rcases List.mem_map.mp hl with ⟨s, _, rfl⟩
      rw [List.length_map]
      exact List.length_take_le _ _)
  simpa [Advanced.candidates] using h

theorem Tailwind.procFold_len (fn : String) :
    ∀ (l : List Node) (acc : List Tailwind.Comp),
      (l.foldl (Tailwind.processComponent fn) acc).length = acc.length + l.length := by
  intro l
  induction l with
  | nil => intro acc; simp
  | cons x xs ih =>
    intro acc
    rw [List.foldl_cons, ih]
    simp [Tailwind.processComponent]
    omega

theorem Optimized.procFold_len_opt (fn : String) :
    ∀ (l : List (Node × String)) (cid : Nat) (acc : List Optimized.Comp),
      ((l.foldl (fun st p => (st.1 + 1, st.2 ++ [Optimized.mkComp p.1 fn p.2 st.1]))
        (cid, acc)).2).length = acc.length + l.length := by
  intro l
  induction l with
  | nil => intro cid acc; simp
  | cons x xs ih =>
    intro cid acc
    rw [List.foldl_cons, ih]
    simp
    omega

theorem Advanced.procFold_len_adv (fn : String) :
    ∀ (l : List (Node × String)) (cid : Nat) (acc : List Advanced.Comp),
      ((l.foldl (fun st p => (st.1 + 1, st.2 ++ [Advanced.mkComp p.1 fn p.2 st.1]))
        (cid, acc)).2).length = acc.length + l.length := by
  intro l
  induction l with
  | nil => intro cid acc; simp
  | cons x xs ih =>
    intro cid acc
    rw [List.foldl_cons, ih]
    simp
    omega

/-- C5 (amended): the per-selector caps exist in the Histoire (3 per
selector, 18 selectors), Tailwind (5 per selector, 11 selectors), optimized
(3 per entry, 15 entries) and advanced (5 per entry, 37 entries) variants,
bounding the components produced from one document; the basic
`extract_components.py` applies NO per-pattern cap, so its per-document
output is bounded only by the number of matching elements. -/
theorem per_pattern_cap_amended :
    (∀ st fn d, ((Histoire.extractFile st fn (Except.ok d)).comps).length ≤
      st.comps.length + 54) ∧
    (∀ st fn d, ((Tailwind.extractFile st fn (Except.ok d)).comps).length ≤
      st.comps.length + 55) ∧
    (∀ cid fn d, (Optimized.extractMajor cid fn d).2.length ≤ 45) ∧
    (∀ cid fn d, (Advanced.extractMajor cid fn d).2.length ≤ 185) := by
  refine ⟨?_, ?_, ?_, ?_⟩
  · intro st fn d
    rw [Histoire.extractFile_ok]
    simp only [List.length_append, Histoire.procList_length]
    have h1 := dedupFold_len Node.serialize Histoire.validText
      (Histoire.candidates (Doc.scrub d)) (st.seen, [])
    have h2 := Histoire.candidates_len (Doc.scrub d)
    simp only [List.length_nil] at h1
    omega
  · intro st fn d
    show ((dedupFold Node.serialize Tailwind.validText
      (Tailwind.candidates (Doc.scrub d)) (st.seen, [])).2.foldl
        (Tailwind.processComponent fn) st.comps).length ≤ _
    rw [Tailwind.procFold_len]
    have h1 := dedupFold_len Node.serialize Tailwind.validText
      (Tailwind.candidates (Doc.scrub d)) (st.seen, [])
    have h2 := Tailwind.candidates_len_tw (Doc.scrub d)
    simp only [List.length_nil] at h1
    omega
  · intro cid fn d
    show (((dedupFold (fun x => x.1.serialize) (fun x => Optimized.substantial x.1)
      (Optimized.candidates d) ([], [])).2.foldl
        (fun st p => (st.1 + 1, st.2 ++ [Optimized.mkComp p.1 fn p.2 st.1]))
        (cid, [])).2).length ≤ _
    rw [Optimized.procFold_len_opt]
    have h1 : (dedupFold (fun (x : Node × String) => x.1.serialize)
        (fun x => Optimized.substantial x.1) (Optimized.candidates d)
        ([], [])).2.length ≤ 0 + (Optimized.candidates d).length :=
      dedupFold_len (fun (x : Node × String) => x.1.serialize)
        (fun x => Optimized.substantial x.1) (Optimized.candidates d) ([], [])
    have h2 := Optimized.candidates_len_opt d
    simp only [List.length_nil]
    omega
  · intro cid fn d
    show (((dedupFold (fun x => x.1.serialize) (fun x => Advanced.substantial x.1)
      (Advanced.candidates d) ([], [])).2.foldl
        (fun st p => (st.1 + 1, st.2 ++ [Advanced.mkComp p.1 fn p.2 st.1]))
        (cid, [])).2).length ≤ _
    rw [Advanced.procFold_len_adv]
    have h1 : (dedupFold (fun (x : Node × String) => x.1.serialize)
        (fun x => Advanced.substantial x.1) (Advanced.candidates d)
        ([], [])).2.length ≤ 0 + (Advanced.candidates d).length :=
      dedupFold_len (fun (x : Node × String) => x.1.serialize)
        (fun x => Advanced.substantial x.1) (Advanced.candidates d) ([], [])
    have h2 := Advanced.candidates_len_adv d
    simp only [List.length_nil]
    omega

/-- C5, counterexample to the claim as stated: the basic extractor retains
all 6 elements matching the single pattern `hero` in one document — more
than any cap of 3 to 5 per pattern would allow. -/
theorem per_pattern_cap_cex :
    (Basic.patCandidates sixHeroes "hero").length = 6 ∧
    (Basic.processFile [] 1 "venue.html" (Except.ok sixHeroes)).2.length = 6 := by
  exact ⟨by decide, by decide⟩

/-! ### Script/style removal lemmas (C9) -/

mutual
theorem Node.scrub_clean : ∀ (n m : Node), Node.scrub n = some m →
    ∀ x ∈ m.subnodes, ¬ (x.tag = "script" ∨ x.tag = "style")
  | .text s => by
    intro m hm x hx
    simp only [Node.scrub, Option.some.injEq] at hm
    subst hm
    simp only [Node.subnodes, List.mem_singleton] at hx
    subst hx
    simp [Node.tag]
  | .elem t i c ch => by
    intro m hm x hx
    simp only [Node.scrub] at hm
    split at hm
    · exact absurd hm (by simp)
    next hcond =>
      rw [Option.some.injEq] at hm
      subst hm
      simp only [Node.subnodes, List.mem_cons] at hx
      rcases hx with rfl | hx
      · simpa [Node.tag] using hcond
      · exact NodeList.scrub_cleanL ch x hx
theorem NodeList.scrub_cleanL : ∀ (l : NodeList),
    ∀ x ∈ l.scrub.subnodes, ¬ (x.tag = "script" ∨ x.tag = "style")
  | .nil => by
    intro x hx
    simp [NodeList.scrub, NodeList.subnodes] at hx
  | .cons n l => by
    intro x hx
    simp only [NodeList.scrub] at hx
    rcases hn : n.scrub with _ | m
    · rw [hn] at hx
      exact NodeList.scrub_cleanL l x hx
    · rw [hn] at hx
      simp only [NodeList.subnodes, List.mem_append] at hx
      rcases hx with hx | hx
      · exact Node.scrub_clean n m hn x hx
      · exact NodeList.scrub_cleanL l x hx
end

mutual
theorem Node.nodesWP_sub : ∀ (p : Option Node) (n : Node) (q : Option Node) (m : Node),
    (q, m) ∈ n.nodesWP p → m ∈ n.subnodes
  | p, .text s => by
    intro q m hm
    simp only [Node.nodesWP, List.mem_singleton, Prod.mk.injEq] at hm
    simp [Node.subnodes, hm.2]
  | p, .elem t i c ch => by
    intro q m hm
    simp only [Node.nodesWP, List.mem_cons, Prod.mk.injEq] at hm
    rcases hm with ⟨_, rfl⟩ | hm
    · simp [Node.subnodes]
    · simp only [Node.subnodes, List.mem_cons]
      exact Or.inr (NodeList.nodesWP_subL _ ch q m hm)
theorem NodeList.nodesWP_subL : ∀ (p : Option Node) (l : NodeList) (q : Option Node) (m : Node),
    (q, m) ∈ NodeList.nodesWP p l → m ∈ l.subnodes
  | p, .nil => by
    intro q m hm
    simp [NodeList.nodesWP] at hm
  | p, .cons n l => by
    intro q m hm
    simp only [NodeList.nodesWP, List.mem_append] at hm
    simp only [NodeList.subnodes, List.mem_append]
    rcases hm with hm | hm
    · exact Or.inl (Node.nodesWP_sub p n q m hm)
    · exact Or.inr (NodeList.nodesWP_subL p l q m hm)
end

mutual
theorem Node.subnodes_trans : ∀ (m e x : Node),
    e ∈ m.subnodes → x ∈ e.subnodes → x ∈ m.subnodes
  | .text s => by
    intro e x he hx
    simp only [Node.subnodes, List.mem_singleton] at he
    subst he
    exact hx
  | .elem t i c ch => by
    intro e x he hx
    simp only [Node.subnodes, List.mem_cons] at he ⊢
    rcases he with rfl | he
    · simp only [Node.subnodes, List.mem_cons] at hx
      exact hx
    · exact Or.inr (NodeList.subnodes_transL ch e x he hx)
theorem NodeList.subnodes_transL : ∀ (l : NodeList) (e x : Node),
    e ∈ l.subnodes → x ∈ e.subnodes → x ∈ l.subnodes
  | .nil => by
    intro e x he hx
    simp [NodeList.subnodes] at he
  | .cons n l => by
    intro e x he hx
    simp only [NodeList.subnodes, List.mem_append] at he ⊢
    rcases he with he | he
    · exact Or.inl (Node.subnodes_trans n e x he hx)
    · exact Or.inr (NodeList.subnodes_transL l e x he hx)
end

theorem Doc.select_sub (d : Doc) (s : Sel) : ∀ e ∈ d.select s, e ∈ d.subnodes := by
  intro e he
  unfold Doc.select at he
  rcases List.mem_map.mp he with ⟨⟨q, m⟩, hqm, rfl⟩
  have hqm2 := List.mem_filter.mp hqm
  unfold Doc.nodesWP at hqm2
  rcases List.mem_flatten.mp hqm2.1 with ⟨l, hl, hmem⟩
  rcases List.mem_map.mp hl with ⟨r, hr, rfl⟩
  unfold Doc.subnodes
  exact List.mem_flatten.mpr ⟨r.subnodes, List.mem_map.mpr ⟨r, hr, rfl⟩,
    Node.nodesWP_sub none r q m hmem⟩

theorem candidates_sub (sels : List Sel) (k : Nat) (d : Doc) :
    ∀ e ∈ (sels.map (fun s => (d.select s).take k)).flatten, e ∈ d.subnodes := by
  intro e he
  rcases List.mem_flatten.mp he with ⟨l, hl, hmem⟩
  rcases List.mem_map.mp hl with ⟨s, _, rfl⟩
  exact Doc.select_sub d s e (List.take_subset _ _ hmem)

theorem Doc.scrub_subnodes_clean (d : Doc) :
    ∀ x ∈ (Doc.scrub d).subnodes, ¬ (x.tag = "script" ∨ x.tag = "style") := by
  intro x hx
  unfold Doc.subnodes at hx
  rcases List.mem_flatten.mp hx with ⟨l, hl, hmem⟩
  rcases List.mem_map.mp hl with ⟨m, hm, rfl⟩
  rcases List.mem_filterMap.mp hm with ⟨r, _, hr⟩
  exact Node.scrub_clean r m hr x hmem

theorem Doc.scrub_elem_clean (d : Doc) :
    ∀ e ∈ (Doc.scrub d).subnodes, ∀ x ∈ e.subnodes,
      ¬ (x.tag = "script" ∨ x.tag = "style") := by
  intro e he x hx
  unfold Doc.subnodes at he
  rcases List.mem_flatten.mp he with ⟨l, hl, hmem⟩
  rcases List.mem_map.mp hl with ⟨m, hm, rfl⟩
  have hxm : x ∈ m.subnodes := Node.subnodes_trans m e x hmem hx
  apply Doc.scrub_subnodes_clean d
  unfold Doc.subnodes
  exact List.mem_flatten.mpr ⟨m.subnodes, List.mem_map.mpr ⟨m, hm, rfl⟩, hxm⟩

theorem Histoire.procList_mem (f : String) :
    ∀ (es : List Node) (c0 : Nat) (c : Histoire.Comp),
      c ∈ Histoire.procList f c0 es → ∃ e ∈ es, ∃ i, c = Histoire.mkComp f i e := by
  intro es
  induction es with
  | nil => intro c0 c hc; simp [Histoire.procList] at hc
  | cons e rest ih =>
    intro c0 c hc
    rw [Histoire.procList] at hc
    rcases List.mem_cons.mp hc with rfl | hc
    · exact ⟨e, List.mem_cons_self _ _, c0 + 1, rfl⟩
    · rcases ih (c0 + 1) c hc with ⟨e2, he2, i, rfl⟩
      exact ⟨e2, List.mem_cons_of_mem _ he2, i, rfl⟩

theorem Tailwind.procFold_mem (fn : String) :
    ∀ (l : List Node) (acc : List Tailwind.Comp) (c : Tailwind.Comp),
      c ∈ l.foldl (Tailwind.processComponent fn) acc →
      c ∈ acc ∨ ∃ e ∈ l, c.html = (⟨trimData e.serializeData⟩ : String) := by
  intro l
  induction l with
  | nil => intro acc c hc; exact Or.inl hc
  | cons e rest ih =>
    intro acc c hc
    rw [List.foldl_cons] at hc
    rcases ih _ c hc with hm | ⟨e2, he2, hh⟩
    · unfold Tailwind.processComponent at hm
      rcases List.mem_append.mp hm with hm | hm
      · exact Or.inl hm
      · rcases List.mem_singleton.mp hm with rfl
        exact Or.inr ⟨e, List.mem_cons_self _ _, rfl⟩
    · exact Or.inr ⟨e2, List.mem_cons_of_mem _ he2, hh⟩

/-- C9: in the Histoire and Tailwind variants, every output component's
markup is the serialization of an element whose subtree contains no script
and no style element — all script/style elements are decomposed from the
parsed document before any selector runs. -/
theorem no_script_style_in_output :
    (∀ (files : List (String × Except Unit Doc)) (c : Histoire.Comp),
      c ∈ (Histoire.run files).comps →
      ∃ e : Node, c.html = e.serialize ∧
        ∀ x ∈ e.subnodes, ¬ (x.tag = "script" ∨ x.tag = "style")) ∧
    (∀ (files : List (String × Except Unit Doc)) (c : Tailwind.Comp),
      c ∈ (Tailwind.run files).comps →
      ∃ e : Node, c.html = (⟨trimData e.serializeData⟩ : String) ∧
        ∀ x ∈ e.subnodes, ¬ (x.tag = "script" ∨ x.tag = "style")) := by
  constructor
  · suffices h : ∀ (fs : List (String × Except Unit Doc)) (st : Histoire.State),
        (∀ c ∈ st.comps, ∃ e : Node, c.html = e.serialize ∧
          ∀ x ∈ e.subnodes, ¬ (x.tag = "script" ∨ x.tag = "style")) →
        ∀ c ∈ (fs.foldl Histoire.runStep st).comps,
          ∃ e : Node, c.html = e.serialize ∧
            ∀ x ∈ e.subnodes, ¬ (x.tag = "script" ∨ x.tag = "style") by
      intro files c hc
      exact h files Histoire.initState
        (by intro c2 hc2; simp [Histoire.initState] at hc2) c hc
    intro fs
    induction fs with
    | nil => intro st h c hc; exact h c hc
    | cons fd rest ih =>
      intro st h c hc
      rw [List.foldl_cons] at hc
      rcases fd with ⟨f, input⟩
      rcases input with err | d0
      · exact ih st h c hc
      · rw [show Histoire.runStep st (f, Except.ok d0) =
            Histoire.extractFile st f (Except.ok d0) from rfl,
          Histoire.extractFile_ok] at hc
        refine ih _ ?_ c hc
        intro c2 hc2
        simp only [List.mem_append] at hc2
        rcases hc2 with hm | hm
        · exact h c2 hm
        · rcases Histoire.procList_mem f _ st.count c2 hm with ⟨e, he, i, rfl⟩
          refine ⟨e, by simp [Histoire.mkComp], ?_⟩
          have hcand : e ∈ Histoire.candidates (Doc.scrub d0) := by
            rcases dedupFold_mem Node.serialize Histoire.validText
              (Histoire.candidates (Doc.scrub d0)) (st.seen, []) e he with hm2 | ⟨hm2, _⟩
            · simp at hm2
            · exact hm2
          have hsub : e ∈ (Doc.scrub d0).subnodes :=
            candidates_sub Histoire.selectors 3 (Doc.scrub d0) e hcand
          exact Doc.scrub_elem_clean d0 e hsub
  · suffices h : ∀ (fs : List (String × Except Unit Doc)) (st : Tailwind.State),
        (∀ c ∈ st.comps, ∃ e : Node, c.html = (⟨trimData e.serializeData⟩ : String) ∧
          ∀ x ∈ e.subnodes, ¬ (x.tag = "script" ∨ x.tag = "style")) →
        ∀ c ∈ (fs.foldl Tailwind.runStep st).comps,
          ∃ e : Node, c.html = (⟨trimData e.serializeData⟩ : String) ∧
            ∀ x ∈ e.subnodes, ¬ (x.tag = "script" ∨ x.tag = "style") by
      intro files c hc
      exact h files ⟨[], []⟩ (by intro c2 hc2; simp at hc2) c hc
    intro fs
    induction fs with
    | nil => intro st h c hc; exact h c hc
    | cons fd rest ih =>
      intro st h c hc
      rw [List.foldl_cons] at hc
      rcases fd with ⟨f, input⟩
      rcases input with err | d0
      · exact ih st h c hc
      · refine ih _ ?_ c hc
        intro c2 hc2
        have hc3 : c2 ∈ (dedupFold Node.serialize Tailwind.validText
            (Tailwind.candidates (Doc.scrub d0)) (st.seen, [])).2.foldl
            (Tailwind.processComponent f) st.comps := hc2
        rcases Tailwind.procFold_mem f _ st.comps c2 hc3 with hm | ⟨e, he, hh⟩
        · exact h c2 hm
        · refine ⟨e, hh, ?_⟩
          have hcand : e ∈ Tailwind.candidates (Doc.scrub d0) := by
            rcases dedupFold_mem Node.serialize Tailwind.validText
              (Tailwind.candidates (Doc.scrub d0)) (st.seen, []) e he with hm2 | ⟨hm2, _⟩
            · simp at hm2
            · exact hm2
          have hsub : e ∈ (Doc.scrub d0).subnodes :=
            candidates_sub Tailwind.selectors 5 (Doc.scrub d0) e hcand
          exact Doc.scrub_elem_clean d0 e hsub

/-- Witness for C9: the component extracted from a section that contained a
script element before scrubbing. -/
theorem no_script_style_witness :
    (0 < (Histoire.run [("venue.html", Except.ok scriptDoc)]).comps.length) ∧
    ∃ e : Node,
      ((Histoire.run [("venue.html", Except.ok scriptDoc)]).comps.get
        ⟨0, by decide⟩).html = e.serialize ∧
      ∀ x ∈ e.subnodes, ¬ (x.tag = "script" ∨ x.tag = "style") :=
  ⟨by decide, no_script_style_in_output.1 [("venue.html", Except.ok scriptDoc)] _
    (List.get_mem _ _ _)⟩

/-! ### Association-list lemmas for the clean pass (C4) -/

theorem lookupA_append_some (l1 l2 : List (String × String)) (k v : String)
    (h : Clean.lookupA l1 k = some v) : Clean.lookupA (l1 ++ l2) k = some v := by
  induction l1 with
  | nil => simp [Clean.lookupA] at h
  | cons x xs ih =>
    rcases x with ⟨a, b⟩
    by_cases hk : k = a
    · rw [List.cons_append, Clean.lookupA, if_pos hk]
      rw [Clean.lookupA, if_pos hk] at h
      exact h
    · rw [List.cons_append, Clean.lookupA, if_neg hk]
      rw [Clean.lookupA, if_neg hk] at h
      exact ih h

theorem lookupA_append_fresh (l : List (String × String)) (k v : String)
    (h : Clean.lookupA l k = none) : Clean.lookupA (l ++ [(k, v)]) k = some v := by
  induction l with
  | nil => simp [Clean.lookupA]
  | cons x xs ih =>
    rcases x with ⟨a, b⟩
    by_cases hk : k = a
    · rw [Clean.lookupA, if_pos hk] at h
      exact absurd h (by simp)
    · rw [List.cons_append, Clean.lookupA, if_neg hk]
      rw [Clean.lookupA, if_neg hk] at h
      exact ih h

theorem lookupA_update_eq (l : List (String × String)) (tpl newv v0 : String)
    (h : Clean.lookupA l tpl = some v0) :
    Clean.lookupA (l.map (fun hv => if hv.1 = tpl then (tpl, newv) else hv)) tpl =
      some newv := by
  induction l with
  | nil => simp [Clean.lookupA] at h
  | cons x xs ih =>
    rcases x with ⟨a, b⟩
    by_cases ha : a = tpl
    · subst ha
      rw [List.map_cons]
      have hhead : (if ((a, b) : String × String).1 = a then (a, newv) else (a, b)) =
          (a, newv) := if_pos rfl
      rw [hhead, Clean.lookupA, if_pos rfl]
    · rw [Clean.lookupA, if_neg (fun hc => ha hc.symm)] at h
      rw [List.map_cons]
      have hhead : (if ((a, b) : String × String).1 = tpl then (tpl, newv) else (a, b)) =
          (a, b) := if_neg ha
      rw [hhead, Clean.lookupA, if_neg (fun hc => ha hc.symm)]
      exact ih h

theorem lookupA_update_ne (l : List (String × String)) (tpl t newv : String)
    (hne : t ≠ tpl) :
    Clean.lookupA (l.map (fun hv => if hv.1 = tpl then (tpl, newv) else hv)) t =
      Clean.lookupA l t := by
  induction l with
  | nil => simp [Clean.lookupA]
  | cons x xs ih =>
    rcases x with ⟨a, b⟩
    by_cases ha : a = tpl
    · subst ha
      rw [List.map_cons]
      have hhead : (if ((a, b) : String × String).1 = a then (a, newv) else (a, b)) =
          (a, newv) := if_pos rfl
      rw [hhead, Clean.lookupA, Clean.lookupA, if_neg hne, if_neg hne]
      exact ih
    · rw [List.map_cons]
      have hhead : (if ((a, b) : String × String).1 = tpl then (tpl, newv) else (a, b)) =
          (a, b) := if_neg ha
      rw [hhead, Clean.lookupA, Clean.lookupA]
      by_cases hk : t = a
      · rw [if_pos hk, if_pos hk]
      · rw [if_neg hk, if_neg hk]
        exact ih

theorem Clean.cleanStep_inv (st : Clean.State) (f : Clean.VueFile)
    (allN restN : List String)
    (h1 : ∀ g ∈ st.kept, ∀ t, Clean.templateRegion g.content = some t →
      Clean.lookupA st.hashes t = some g.name)
    (h2 : (st.kept.map Clean.VueFile.name).Nodup)
    (h3 : f.name ∉ st.kept.map Clean.VueFile.name)
    (h5 : ∀ n ∈ st.stories, n ∈ st.kept.map Clean.VueFile.name ∨ n = f.name ∨
      n ∈ restN ∨ n ∉ allN) :
    (∀ g ∈ (Clean.cleanStep st f).kept, ∀ t, Clean.templateRegion g.content = some t →
      Clean.lookupA (Clean.cleanStep st f).hashes t = some g.name) ∧
    (((Clean.cleanStep st f).kept.map Clean.VueFile.name).Nodup) ∧
    (∀ g ∈ (Clean.cleanStep st f).kept, g ∈ st.kept ∨ g = f) ∧
    (∀ n ∈ (Clean.cleanStep st f).stories,
      n ∈ (Clean.cleanStep st f).kept.map Clean.VueFile.name ∨ n ∈ restN ∨ n ∉ allN) := by
  have happend_nodup : ((st.kept ++ [f]).map Clean.VueFile.name).Nodup := by
    rw [List.map_append, List.nodup_append]
    refine ⟨h2, List.nodup_singleton _, ?_⟩
    intro a ha hb
    simp only [List.map_cons, List.map_nil, List.mem_singleton] at hb
    subst hb
    exact h3 ha
  unfold Clean.cleanStep
  by_cases hbad : Clean.badName f.name = true
  · rw [if_pos hbad]
    refine ⟨h1, h2, fun g hg => Or.inl hg, ?_⟩
    intro n hn
    have hn2 := List.mem_filter.mp hn
    have hne : n ≠ f.name := by simpa using hn2.2
    rcases h5 n hn2.1 with hm | hm | hm | hm
    · exact Or.inl hm
    · exact absurd hm hne
    · exact Or.inr (Or.inl hm)
    · exact Or.inr (Or.inr hm)
  · rw [if_neg hbad]
    rcases htpl : Clean.templateRegion f.content with _ | tpl
    · simp only [htpl]
      refine ⟨?_, happend_nodup, ?_, ?_⟩
      · intro g hg t ht
        rcases List.mem_append.mp hg with hm | hm
        · exact h1 g hm t ht
        · rcases List.mem_singleton.mp hm with rfl
          rw [htpl] at ht
          exact absurd ht (by simp)
      · intro g hg
        rcases List.mem_append.mp hg with hm | hm
        · exact Or.inl hm
        · exact Or.inr (List.mem_singleton.mp hm)
      · intro n hn
        rcases h5 n hn with hm | hm | hm | hm
        · exact Or.inl (by rw [List.map_append]; exact List.mem_append_left _ hm)
        · subst hm
          exact Or.inl (by rw [List.map_append]; exact List.mem_append_right _ (by simp))
        · exact Or.inr (Or.inl hm)
        · exact Or.inr (Or.inr hm)
    · simp only [htpl]
      rcases hlook : Clean.lookupA st.hashes tpl with _ | existing
      · simp only [hlook]
        refine ⟨?_, happend_nodup, ?_, ?_⟩
        · intro g hg t ht
          rcases List.mem_append.mp hg with hm | hm
          · exact lookupA_append_some _ _ _ _ (h1 g hm t ht)
          · rcases List.mem_singleton.mp hm with rfl
            rw [htpl] at ht
            rcases Option.some.injEq _ _ ▸ ht with rfl
            exact lookupA_append_fresh _ _ _ hlook
        · intro g hg
          rcases List.mem_append.mp hg with hm | hm
          · exact Or.inl hm
          · exact Or.inr (List.mem_singleton.mp hm)
        · intro n hn
          rcases h5 n hn with hm | hm | hm | hm
          · exact Or.inl (by rw [List.map_append]; exact List.mem_append_left _ hm)
          · subst hm
            exact Or.inl (by rw [List.map_append]; exact List.mem_append_right _ (by simp))
          · exact Or.inr (Or.inl hm)
          · exact Or.inr (Or.inr hm)
      · simp only [hlook]
        have hfilter_nodup :
            (((st.kept.filter (fun g => g.name ≠ existing)) ++ [f]).map
              Clean.VueFile.name).Nodup := by
          rw [List.map_append, List.nodup_append]
          refine ⟨h2.sublist ((List.filter_sublist _).map _), List.nodup_singleton _, ?_⟩
          intro a ha hb
          simp only [List.map_cons, List.map_nil, List.mem_singleton] at hb
          subst hb
          rcases List.mem_map.mp ha with ⟨g, hg, hgn⟩
          exact h3 (List.mem_map.mpr ⟨g, (List.mem_filter.mp hg).1, hgn⟩)
        by_cases hwin : (f.name.length < existing.length ∨
            lexLt f.name.data existing.data = true)
        · rw [if_pos hwin]
          refine ⟨?_, hfilter_nodup, ?_, ?_⟩
          · intro g hg t ht
            rcases List.mem_append.mp hg with hm | hm
            · have hm2 := List.mem_filter.mp hm
              have hgne : g.name ≠ existing := by simpa using hm2.2
              have hold := h1 g hm2.1 t ht
              have htne : t ≠ tpl := by
                intro hc
                subst hc
                rw [hlook] at hold
                exact hgne (by injection hold with h; exact h.symm) 
              rw [lookupA_update_ne _ _ _ _ htne]
              exact hold
            · rcases List.mem_singleton.mp hm with rfl
              rw [htpl] at ht
              rcases Option.some.injEq _ _ ▸ ht with rfl
              exact lookupA_update_eq _ _ _ _ hlook
          · intro g hg
            rcases List.mem_append.mp hg with hm | hm
            · exact Or.inl (List.mem_of_mem_filter hm)
            · exact Or.inr (List.mem_singleton.mp hm)
          · intro n hn
            have hn2 := List.mem_filter.mp hn
            have hne : n ≠ existing := by simpa using hn2.2
            rcases h5 n hn2.1 with hm | hm | hm | hm
            · rcases List.mem_map.mp hm with ⟨g, hg, rfl⟩
              refine Or.inl ?_
              rw [List.map_append]
              refine List.mem_append_left _ (List.mem_map.mpr ⟨g, ?_, rfl⟩)
              exact List.mem_filter.mpr ⟨hg, by simpa using hne⟩
            · subst hm
              refine Or.inl ?_
              rw [List.map_append]
              exact List.mem_append_right _ (by simp)
            · exact Or.inr (Or.inl hm)
            · exact Or.inr (Or.inr hm)
        · rw [if_neg hwin]
          refine ⟨h1, h2, fun g hg => Or.inl hg, ?_⟩
          intro n hn
          have hn2 := List.mem_filter.mp hn
          have hne : n ≠ f.name := by simpa using hn2.2
          rcases h5 n hn2.1 with hm | hm | hm | hm
          · exact Or.inl hm
          · exact absurd hm hne
          · exact Or.inr (Or.inl hm)
          · exact Or.inr (Or.inr hm)

theorem Clean.scan_fold (allN : List String) :
    ∀ (fs : List Clean.VueFile) (st : Clean.State),
      (∀ g ∈ st.kept, ∀ t, Clean.templateRegion g.content = some t →
        Clean.lookupA st.hashes t = some g.name) →
      ((st.kept.map Clean.VueFile.name).Nodup) →
      (∀ g ∈ st.kept, g.name ∉ fs.map Clean.VueFile.name) →
      ((fs.map Clean.VueFile.name).Nodup) →
      (∀ n ∈ st.stories, n ∈ st.kept.map Clean.VueFile.name ∨
        n ∈ fs.map Clean.VueFile.name ∨ n ∉ allN) →
      (∀ g ∈ (fs.foldl Clean.cleanStep st).kept, ∀ t,
        Clean.templateRegion g.content = some t →
        Clean.lookupA (fs.foldl Clean.cleanStep st).hashes t = some g.name) ∧
      (((fs.foldl Clean.cleanStep st).kept.map Clean.VueFile.name).Nodup) ∧
      (∀ n ∈ (fs.foldl Clean.cleanStep st).stories,
        n ∈ (fs.foldl Clean.cleanStep st).kept.map Clean.VueFile.name ∨ n ∉ allN) := by
  intro fs
  induction fs with
  | nil =>
    intro st h1 h2 _ _ h5
    refine ⟨h1, h2, ?_⟩
    intro n hn
    rcases h5 n hn with hm | hm | hm
    · exact Or.inl hm
    · simp at hm
    · exact Or.inr hm
  | cons f rest ih =>
    intro st h1 h2 hfresh hnodup h5
    rw [List.foldl_cons]
    have hf3 : f.name ∉ st.kept.map Clean.VueFile.name := by
      intro hc
      rcases List.mem_map.mp hc with ⟨g, hg, hgn⟩
      exact hfresh g hg (by simp [← hgn])
    have h5x : ∀ n ∈ st.stories, n ∈ st.kept.map Clean.VueFile.name ∨ n = f.name ∨
        n ∈ rest.map Clean.VueFile.name ∨ n ∉ allN := by
      intro n hn
      rcases h5 n hn with hm | hm | hm
      · exact Or.inl hm
      · simp only [List.map_cons, List.mem_cons] at hm
        rcases hm with hm | hm
        · exact Or.inr (Or.inl hm)
        · exact Or.inr (Or.inr (Or.inl hm))
      · exact Or.inr (Or.inr (Or.inr hm))
    have hstep := Clean.cleanStep_inv st f allN (rest.map Clean.VueFile.name)
      h1 h2 hf3 h5x
    have hnodup_rest : (rest.map Clean.VueFile.name).Nodup := by
      simp only [List.map_cons, List.nodup_cons] at hnodup
      exact hnodup.2
    have hfname_rest : f.name ∉ rest.map Clean.VueFile.name := by
      simp only [List.map_cons, List.nodup_cons] at hnodup
      exact hnodup.1
    refine ih (Clean.cleanStep st f) hstep.1 hstep.2.1 ?_ hnodup_rest ?_
    · intro g hg
      rcases hstep.2.2.1 g hg with hm | hm
      · intro hc
        exact hfresh g hm (by simp only [List.map_cons, List.mem_cons]; exact Or.inr hc)
      · subst hm
        exact hfname_rest
    · intro n hn
      rcases hstep.2.2.2 n hn with hm | hm | hm
      · exact Or.inl hm
      · exact Or.inr (Or.inl hm)
      · exact Or.inr (Or.inr hm)

/-- C4 (amended): in the duplicate scan of the clean pass, at most one
surviving component file carries any given template region (pairwise, two
distinct survivors never share one), and every story name belonging to a
scanned file that did not survive is removed with it.  The survivor of a
duplicate pair is the NEW candidate exactly when its name is shorter OR
lexicographically earlier than the incumbent; because of that disjunction
the survivor depends on the directory listing order whenever one name is
shorter but lexicographically later (see the counterexample). -/
theorem clean_dedup_amended :
    ∀ (files : List Clean.VueFile) (stories : List String),
      ((files.map Clean.VueFile.name).Nodup) →
      ((Clean.cleanScan files stories).kept.Pairwise (fun f g =>
        ∀ t, Clean.templateRegion f.content = some t →
          Clean.templateRegion g.content ≠ some t)) ∧
      (∀ n ∈ (Clean.cleanScan files stories).stories,
        n ∈ (Clean.cleanScan files stories).kept.map Clean.VueFile.name ∨
        n ∉ files.map Clean.VueFile.name) := by
  intro files stories hnodup
  have hfold := Clean.scan_fold (files.map Clean.VueFile.name) files ⟨[], [], stories⟩
    (by intro g hg; simp at hg)
    (by simp)
    (by intro g hg; simp at hg)
    hnodup
    (by
      intro n hn
      by_cases hc : n ∈ files.map Clean.VueFile.name
      · exact Or.inr (Or.inl hc)
      · exact Or.inr (Or.inr hc))
  refine ⟨?_, hfold.2.2⟩
  have hpn : (Clean.cleanScan files stories).kept.Pairwise
      (fun f g => f.name ≠ g.name) := by
    exact List.pairwise_map.mp hfold.2.1
  refine hpn.imp_of_mem ?_
  intro f g hf hg hne t hft hgt
  have h1 := hfold.1 f hf t hft
  have h2 := hfold.1 g hg t hgt
  rw [h1] at h2
  exact hne (Option.some.inj h2)

/-- Witness for C4 (amended) on a concrete two-file scan. -/
theorem clean_dedup_witness :
    (([fileB, fileAz].map Clean.VueFile.name).Nodup) ∧
    ((Clean.cleanScan [fileB, fileAz] ["B", "Az"]).kept.Pairwise (fun f g =>
      ∀ t, Clean.templateRegion f.content = some t →
        Clean.templateRegion g.content ≠ some t)) :=
  ⟨by decide, (clean_dedup_amended [fileB, fileAz] ["B", "Az"] (by decide)).1⟩

/-- C4, counterexample to the claimed tie-break: two files whose template
regions are byte-identical, with names "B" (shorter) and "Az"
(lexicographically earlier).  A length-first tie-break would keep "B", but
when "B" is listed first the code keeps "Az"; listing them in the opposite
order keeps "B", so the survivor also depends on the listing order. -/
theorem clean_tiebreak_cex :
    Clean.templateRegion fileB.content = Clean.templateRegion fileAz.content ∧
    "B".length < "Az".length ∧
    (Clean.cleanScan [fileB, fileAz] []).kept.map Clean.VueFile.name = ["Az"] ∧
    (Clean.cleanScan [fileAz, fileB] []).kept.map Clean.VueFile.name = ["B"] := by
  refine ⟨by decide, by decide, by decide, by decide⟩

theorem Clean.firstOccs_mem : ∀ (l : List String) (x : String),
    x ∈ Clean.firstOccs l ↔ x ∈ l := by
  intro l
  induction l with
  | nil => intro x; simp [Clean.firstOccs]
  | cons y ys ih =>
    intro x
    rw [Clean.firstOccs]
    constructor
    · intro hx
      rcases List.mem_cons.mp hx with rfl | hx
      · exact List.mem_cons_self _ _
      · exact List.mem_cons_of_mem _ ((ih x).mp (List.mem_of_mem_filter hx))
    · intro hx
      rcases List.mem_cons.mp hx with rfl | hx
      · exact List.mem_cons_self _ _
      · by_cases hxy : x = y
        · subst hxy
          exact List.mem_cons_self _ _
        · exact List.mem_cons_of_mem _
            (List.mem_filter.mpr ⟨(ih x).mpr hx, by simpa using hxy⟩)

theorem Clean.removed_iff (names : List String) (n : String) (hn : n ∈ names) :
    n ∈ Clean.consolidateRemoved names ↔
    n ∈ ((names.filter (fun m => Clean.stripNumSuffix m =
      Clean.stripNumSuffix n)).insertionSort (fun a b => strLe a b)).drop 2 := by
  unfold Clean.consolidateRemoved
  constructor
  · intro hmem
    rcases List.mem_flatten.mp hmem with ⟨l, hl, hnl⟩
    rcases List.mem_map.mp hl with ⟨b, _, rfl⟩
    by_cases hlen : 2 < (names.filter (fun m => Clean.stripNumSuffix m = b)).length
    · rw [if_pos hlen] at hnl
      have hng : n ∈ names.filter (fun m => Clean.stripNumSuffix m = b) :=
        (List.perm_insertionSort _ _).subset (List.drop_subset _ _ hnl)
      have hb2 : Clean.stripNumSuffix n = b := by
        simpa using (List.mem_filter.mp hng).2
      subst hb2
      exact hnl
    · rw [if_neg hlen] at hnl
      simp at hnl
  · intro hmem
    have hlen : 2 < (names.filter (fun m => Clean.stripNumSuffix m =
        Clean.stripNumSuffix n)).length := by
      by_contra hc
      push_neg at hc
      have hlen2 : ((names.filter (fun m => Clean.stripNumSuffix m =
          Clean.stripNumSuffix n)).insertionSort (fun a b => strLe a b)).length ≤ 2 := by
        rw [(List.perm_insertionSort _ _).length_eq]
        exact hc
      rw [List.drop_eq_nil_of_le hlen2] at hmem
      simp at hmem
    refine List.mem_flatten.mpr ⟨_, List.mem_map.mpr ⟨Clean.stripNumSuffix n, ?_, rfl⟩, ?_⟩
    · exact (Clean.firstOccs_mem _ _).mpr (List.mem_map.mpr ⟨n, hn, rfl⟩)
    · rw [if_pos hlen]
      exact hmem

theorem Clean.survivor_iff (names stories : List String) (x : String) :
    x ∈ (Clean.consolidate names stories).1 ↔
    x ∈ names ∧ x ∉ Clean.consolidateRemoved names := by
  unfold Clean.consolidate
  simp [List.mem_filter]

/-- C8: after the consolidation pass, for every base-name group (name with
one trailing `_<digits>` suffix stripped) the survivors are exactly the
first two names of the group in ascending lexicographic order, so at most
two files per group remain; the story file of every removed component is
removed with it. -/
theorem consolidate_keep_first_two :
    ∀ (names stories : List String), names.Nodup →
      (∀ n ∈ names, (n ∈ (Clean.consolidate names stories).1 ↔
        n ∈ ((names.filter (fun m => Clean.stripNumSuffix m =
          Clean.stripNumSuffix n)).insertionSort (fun a b => strLe a b)).take 2)) ∧
      (∀ b, ((Clean.consolidate names stories).1.filter
        (fun n => Clean.stripNumSuffix n = b)).length ≤ 2) ∧
      (∀ n ∈ stories, n ∈ names → n ∉ (Clean.consolidate names stories).1 →
        n ∉ (Clean.consolidate names stories).2) := by
  intro names stories hnodup
  have hmain : ∀ n ∈ names, (n ∈ (Clean.consolidate names stories).1 ↔
      n ∈ ((names.filter (fun m => Clean.stripNumSuffix m =
        Clean.stripNumSuffix n)).insertionSort (fun a b => strLe a b)).take 2) := by
    intro n hn
    set g := names.filter (fun m => Clean.stripNumSuffix m = Clean.stripNumSuffix n) with hgdef
    set srt := g.insertionSort (fun a b => strLe a b) with hsrtdef
    have hng : n ∈ g := List.mem_filter.mpr ⟨hn, by simp⟩
    have hnsrt : n ∈ srt := ((List.perm_insertionSort _ _).mem_iff).mpr hng
    have hsplit : srt.take 2 ++ srt.drop 2 = srt := List.take_append_drop _ _
    have hnodup_srt : srt.Nodup :=
      ((List.perm_insertionSort _ _).nodup_iff).mpr (hnodup.filter _)
    have hdisj : ∀ a, a ∈ srt.take 2 → a ∈ srt.drop 2 → False := by
      have h2 : (srt.take 2 ++ srt.drop 2).Nodup := by rw [hsplit]; exact hnodup_srt
      rw [List.nodup_append] at h2
      exact fun a ha hb => h2.2.2 ha hb
    rw [Clean.survivor_iff, Clean.removed_iff names n hn]
    constructor
    · intro ⟨_, hnot⟩
      have : n ∈ srt.take 2 ++ srt.drop 2 := by rw [hsplit]; exact hnsrt
      rcases List.mem_append.mp this with hm | hm
      · exact hm
      · exact absurd hm hnot
    · intro htake
      exact ⟨hn, fun hdrop => hdisj n htake hdrop⟩
  refine ⟨hmain, ?_, ?_⟩
  · intro b
    have hsubset : ∀ x ∈ (Clean.consolidate names stories).1.filter
        (fun n => Clean.stripNumSuffix n = b),
        x ∈ ((names.filter (fun m => Clean.stripNumSuffix m = b)).insertionSort
          (fun a c => strLe a c)).take 2 := by
      intro x hx
      have hx2 := List.mem_filter.mp hx
      have hb : Clean.stripNumSuffix x = b := by simpa using hx2.2
      have hxn : x ∈ names := ((Clean.survivor_iff names stories x).mp hx2.1).1
      have := (hmain x hxn).mp hx2.1
      simpa [hb] using this
    have hnodup_f : ((Clean.consolidate names stories).1.filter
        (fun n => Clean.stripNumSuffix n = b)).Nodup := by
      refine List.Nodup.filter _ ?_
      unfold Clean.consolidate
      exact (hnodup.filter _)
    have hsp := List.subperm_of_subset hnodup_f hsubset
    calc ((Clean.consolidate names stories).1.filter
        (fun n => Clean.stripNumSuffix n = b)).length
        ≤ _ := hsp.length_le
      _ ≤ 2 := List.length_take_le _ _
  · intro n hns hnn hnsurv
    have hrem : n ∈ Clean.consolidateRemoved names := by
      by_contra hc
      exact hnsurv ((Clean.survivor_iff names stories n).mpr ⟨hnn, hc⟩)
    intro hmem
    unfold Clean.consolidate at hmem
    have := List.mem_filter.mp hmem
    simp at this
    exact this.2 hrem

/-- Witness for C8 on a concrete listing: with four files in the `Hero`
group, "Hero_2" is removed because it is not among the first two sorted
names, and its story goes with it. -/
theorem consolidate_keep_first_two_witness :
    (["Hero_1", "Hero_2", "Hero_3", "Hero_10"] : List String).Nodup ∧
    ¬ ("Hero_2" ∈ (Clean.consolidate ["Hero_1", "Hero_2", "Hero_3", "Hero_10"]
      ["Hero_2"]).1) ∧
    ("Hero_2" ∉ (Clean.consolidate ["Hero_1", "Hero_2", "Hero_3", "Hero_10"]
      ["Hero_2"]).2) := by
  have h := consolidate_keep_first_two ["Hero_1", "Hero_2", "Hero_3", "Hero_10"]
    ["Hero_2"] (by decide)
  have hnot : ¬ ("Hero_2" ∈ (Clean.consolidate ["Hero_1", "Hero_2", "Hero_3", "Hero_10"]
      ["Hero_2"]).1) := by
    intro hc
    have := (h.1 "Hero_2" (by decide)).mp hc
    revert this
    decide
  refine ⟨by decide, hnot, ?_⟩
  exact h.2.2 "Hero_2" (by decide) (by decide) hnot
